import Mathlib

/-!
# StripTrease: stripping bracketed annotations from tree strings

A shallow embedding of `StripTrease.cpp`.  A `std::string` is a `List Char`
(one `Char` per byte), a `vector<int>` of offsets is a `List Nat`, and the
`int` bounds `supStart` / `supStop`, which can go negative, are `Int`.
String lengths are taken to fit in an `int`, as the source does when it
casts `size()`.  A `size_t` search result is an `Option Nat`, with `none`
for `string::npos`.  Erasing through an iterator is only defined for a
valid offset, so `erase` is fallible and `removeAnnotations` returns an
`Option`.  Diagnostics written to `cout` are not part of the model.
-/

namespace StripTrease

/-! ## Library routines used by the program -/

/-- Search loop of `std::string::find`: `i` is the offset of the first
character of the remaining text. -/
def findAux (pat : List Char) : List Char → Nat → Option Nat
  | [], i => if pat.isEmpty then some i else none
  | c :: cs, i => if pat.isPrefixOf (c :: cs) then some i else findAux pat cs (i + 1)

/-- The call `s.find(pat)`: the lowest offset at which `pat` occurs in `s`,
`none` standing for `string::npos`. -/
def find (s pat : List Char) : Option Nat :=
  findAux pat s 0

/-- Search loop of `std::string::find_first_not_of`. -/
def findFirstNotOfAux (chars : List Char) : List Char → Nat → Option Nat
  | [], _ => none
  | c :: cs, i => if chars.contains c then findFirstNotOfAux chars cs (i + 1) else some i

/-- The call `s.find_first_not_of(chars, pos)`: the lowest offset `≥ pos`
holding a character outside `chars`, `none` standing for `string::npos`. -/
def find_first_not_of (s chars : List Char) (pos : Nat) : Option Nat :=
  findFirstNotOfAux chars (s.drop pos) pos

/-- The cast `(int)found` of a search result: `string::npos` becomes `-1`. -/
def castFound : Option Nat → Int
  | some n => (n : Int)
  | none => -1

/-- The call `s.substr(pos, len)`. -/
def substr (s : List Char) (pos len : Nat) : List Char :=
  (s.drop pos).take len

/-- The call `cleaned.erase(cleaned.begin() + pos)`, defined only for an
offset inside the string. -/
def erase (cleaned : List Char) (pos : Nat) : Option (List Char) :=
  if pos < cleaned.length then some (cleaned.eraseIdx pos) else none

/-- Whitespace as seen by `operator>>` in the default locale. -/
def isSpace (c : Char) : Bool :=
  c = ' ' || c = '\t' || c = '\n' || c = '\r' || c = Char.ofNat 11 || c = Char.ofNat 12

/-! ## The program -/

/-- The literal `"posterior"`. -/
def posteriorKey : List Char := "posterior".toList

/-- The literal `"label"`. -/
def labelKey : List Char := "label".toList

/-- The literal `"0123456789."`. -/
def numericChars : List Char := "0123456789.".toList

/-- Extraction loop of `tokenizeString`: `cur` is the token being read. -/
def tokenizeAux : List Char → List Char → List (List Char)
  | [], cur => if cur.isEmpty then [] else [cur]
  | c :: cs, cur =>
    if isSpace c then
      if cur.isEmpty then tokenizeAux cs [] else cur :: tokenizeAux cs []
    else tokenizeAux cs (cur ++ [c])

/-- Embedding of `tokenizeString`: repeated `tempStream >> tempString`. -/
def tokenizeString (stringToParse : List Char) : List (List Char) :=
  tokenizeAux stringToParse []

/-- First part of `keepSupportValue`: the pair `(supStart, supStop)`. -/
def supportBounds ( annotation : List Char) : Int × Int :=
  match find annotation posteriorKey with
  | some found =>
    let supStart : Int := (found : Int) + 10
    (supStart, castFound (find_first_not_of annotation numericChars supStart.toNat) - 1)
  | none =>
    match find annotation labelKey with
    | some found =>
      let supStart : Int := (found : Int) + 6
      (supStart, castFound (find_first_not_of annotation numericChars supStart.toNat) - 1)
    | none => (( annotation.length : Int) - 1, 0)

/-- Embedding of `keepSupportValue`: the new contents of `charsToRemove`. -/
def keepSupportValue ( annotation : List Char) (start : Nat) (charsToRemove : List Nat) :
    List Nat :=
  let b := supportBounds annotation
  charsToRemove ++
    ((List.range annotation.length).filter
      (fun (i : Nat) => decide ((i : Int) < b.1 ∨ (i : Int) > b.2))).map (fun i => i + start)

/-- The loop variables of `removeAnnotations`. -/
structure ScanState where
  going : Bool
  start : Nat
  charsToRemove : List Nat

/-- Body of the scanning loop of `removeAnnotations` when `stripAll` is set. -/
def stepAll (cleaned : List Char) (st : ScanState) (i : Nat) : ScanState :=
  if st.going then
    if cleaned[i]? = some ']' then ScanState.mk false st.start (st.charsToRemove ++ [i])
    else ScanState.mk st.going st.start (st.charsToRemove ++ [i])
  else
    if cleaned[i]? = some '[' then ScanState.mk true i (st.charsToRemove ++ [i])
    else st

/-- Body of the scanning loop of `removeAnnotations` when `stripAll` is not set. -/
def stepKeep (cleaned : List Char) (st : ScanState) (i : Nat) : ScanState :=
  if st.going then
    if cleaned[i]? = some ']' then
      ScanState.mk false st.start
        (keepSupportValue (substr cleaned st.start (i - st.start + 1)) st.start st.charsToRemove)
    else st
  else
    if cleaned[i]? = some '[' then ScanState.mk true i st.charsToRemove
    else st

/-- The erasing loop of `removeAnnotations`, over the reversed offsets. -/
def eraseAll (cleaned : List Char) (charsToRemove : List Nat) : Option (List Char) :=
  charsToRemove.reverse.foldlM erase cleaned

/-- Embedding of `removeAnnotations`.  The loop bound `numChars - 1` is
truncated subtraction: for an empty string the source's bound is `-1` and
the loop does not run either. -/
def removeAnnotations (tree : List Char) (stripAll : Bool) : Option (List Char) :=
  let cleaned := tree
  let numChars := cleaned.length
  let init : ScanState := ScanState.mk false 0 []
  if stripAll then
    eraseAll cleaned ((List.range (numChars - 1)).foldl (stepAll cleaned) init).charsToRemove
  else
    eraseAll cleaned ((List.range (numChars - 1)).foldl (stepKeep cleaned) init).charsToRemove

/-- Embedding of `stripTree`. -/
def stripTree (tree : List Char) (newick stripAll : Bool) : Option (List Char) :=
  let tokenizedString := tokenizeString tree
  let numElements := tokenizedString.length
  if newick then
    if numElements = 5 then
      tokenizedString[4]? >>= fun t4 => removeAnnotations t4 stripAll
    else if numElements = 4 then
      tokenizedString[3]? >>= fun t3 => removeAnnotations t3 stripAll
    else if numElements = 1 then
      tokenizedString[0]? >>= fun t0 => removeAnnotations t0 stripAll
    else some tree
  else
    if numElements = 5 then
      tokenizedString[0]? >>= fun t0 =>
      tokenizedString[1]? >>= fun t1 =>
      tokenizedString[2]? >>= fun t2 =>
      tokenizedString[3]? >>= fun t3 =>
      tokenizedString[4]? >>= fun t4 =>
      removeAnnotations t4 stripAll >>= fun r =>
      some (t0 ++ " ".toList ++ t1 ++ " ".toList ++ t2 ++ " ".toList ++ t3 ++ " ".toList ++ r)
    else if numElements = 4 then
      tokenizedString[0]? >>= fun t0 =>
      tokenizedString[1]? >>= fun t1 =>
      tokenizedString[2]? >>= fun t2 =>
      tokenizedString[3]? >>= fun t3 =>
      removeAnnotations t3 stripAll >>= fun r =>
      some (t0 ++ " ".toList ++ t1 ++ " ".toList ++ t2 ++ " ".toList ++ r)
    else some tree

/-- Embedding of `parseString`: indexing the token vector is only defined for
a position inside it. -/
def parseString (stringToParse : List Char) (stringPosition : Nat) : Option (List Char) :=
  (tokenizeString stringToParse)[stringPosition]?

/-- What `processTrees` has produced so far: the lines written to the output
stream `strippedTrees` and the counter `numTrees`. -/
structure RunState where
  strippedTrees : List (List Char)
  numTrees : Nat
deriving DecidableEq

/-- Body of the `getline` loop of `processTrees` for one line of input. -/
def processLine (newick stripAll : Bool) (st : RunState) (line : List Char) :
    Option RunState :=
  if line.isEmpty then some st
  else
    parseString line 0 >>= fun first =>
    if first = "tree".toList then
      stripTree line newick stripAll >>= fun res =>
      some (RunState.mk (st.strippedTrees ++ [res]) (st.numTrees + 1))
    else
      if !newick then some (RunState.mk (st.strippedTrees ++ [line]) st.numTrees)
      else some st

/-- Embedding of `processTrees` over the lines of the input file. -/
def processTrees (lines : List (List Char)) (newick stripAll : Bool) : Option RunState :=
  lines.foldlM (processLine newick stripAll) (RunState.mk [] 0)

/-! ## Masks: a description of the removal list by marked positions -/

/-- Offsets, counted from `off`, of the marked positions of a mask. -/
def maskIdxs : List Bool → Nat → List Nat
  | [], _ => []
  | b :: m, off => if b then off :: maskIdxs m (off + 1) else maskIdxs m (off + 1)

/-- The characters of a string standing at the unmarked positions of a mask. -/
def dropMarked : List Bool → List Char → List Char
  | [], cs => cs
  | _ :: _, [] => []
  | b :: m, c :: cs => if b then dropMarked m cs else c :: dropMarked m cs

/-- Positions marked by the scan with `stripAll` set, from the state `going`. -/
def maskAll : Bool → List Char → List Bool
  | _, [] => []
  | true, c :: cs => if c = ']' then true :: maskAll false cs else true :: maskAll true cs
  | false, c :: cs => if c = '[' then true :: maskAll true cs else false :: maskAll false cs

/-- Positions that `keepSupportValue` marks inside one annotation. -/
def blockMask (ann : List Char) : List Bool :=
  (List.range ann.length).map
    (fun (i : Nat) =>
      decide ((i : Int) < (supportBounds ann).1 ∨ (i : Int) > (supportBounds ann).2))

/-- Positions marked by the scan with `stripAll` not set; `pending` holds the
characters of the annotation that is open, whose marks are only decided when
it closes. -/
def maskKeep : Option (List Char) → List Char → List Bool
  | none, [] => []
  | some blk, [] => List.replicate blk.length false
  | none, c :: cs => if c = '[' then maskKeep (some [c]) cs else false :: maskKeep none cs
  | some blk, c :: cs =>
    if c = ']' then blockMask (blk ++ [c]) ++ maskKeep none cs
    else maskKeep (some (blk ++ [c])) cs

/-- The annotation that is open in a scan state, given the text `pre` read so far. -/
def pendingOf (st : ScanState) (pre : List Char) : Option (List Char) :=
  if st.going then some (pre.drop st.start) else none

/-- The offset from which the marks that are still to come are counted. -/
def offsetOf (st : ScanState) (pre : List Char) : Nat :=
  if st.going then st.start else pre.length

/-- Text that the scan with `stripAll` set leaves of the scanned characters,
from the state `going`. -/
def keptAll : Bool → List Char → List Char
  | _, [] => []
  | true, c :: cs => if c = ']' then keptAll false cs else keptAll true cs
  | false, c :: cs => if c = '[' then keptAll true cs else c :: keptAll false cs

/-- The part of one annotation that `keepSupportValue` leaves in place. -/
def supportValue (ann : List Char) : List Char :=
  dropMarked (blockMask ann) ann

/-- Text that the scan with `stripAll` not set leaves of the scanned
characters; `pending` holds the characters of the annotation that is open. -/
def keptKeep : Option (List Char) → List Char → List Char
  | none, [] => []
  | some blk, [] => blk
  | none, c :: cs => if c = '[' then keptKeep (some [c]) cs else c :: keptKeep none cs
  | some blk, c :: cs =>
    if c = ']' then supportValue (blk ++ [c]) ++ keptKeep none cs
    else keptKeep (some (blk ++ [c])) cs

/-! ## Vocabulary of the specification -/

/-- The text contains neither `[` nor `]`. -/
def NoBracket (t : List Char) : Prop :=
  '[' ∉ t ∧ ']' ∉ t

instance (t : List Char) : Decidable (NoBracket t) :=
  inferInstanceAs (Decidable ('[' ∉ t ∧ ']' ∉ t))

/-- A treestring with balanced, non-nested blocks: for each pair `(p, b)` the
text `p` followed by the block `[b]`, and the closing text `q` at the end. -/
def withBlocks : List (List Char × List Char) → List Char → List Char
  | [], q => q
  | (p, b) :: rest, q => p ++ '[' :: (b ++ ']' :: withBlocks rest q)

/-- The same treestring with every block deleted from `[` through `]`. -/
def blocksDeleted : List (List Char × List Char) → List Char → List Char
  | [], q => q
  | (p, _) :: rest, q => p ++ blocksDeleted rest q

/-- The same treestring with every block replaced by what `keepSupportValue`
leaves of it. -/
def blocksReduced : List (List Char × List Char) → List Char → List Char
  | [], q => q
  | (p, b) :: rest, q => p ++ (supportValue ('[' :: (b ++ [']'])) ++ blocksReduced rest q)

/-- Every text between blocks and every block content is free of brackets. -/
def WellFormed (segs : List (List Char × List Char)) (q : List Char) : Prop :=
  (∀ pb ∈ segs, NoBracket pb.1 ∧ NoBracket pb.2) ∧ NoBracket q

instance (segs : List (List Char × List Char)) (q : List Char) : Decidable (WellFormed segs q) :=
  inferInstanceAs (Decidable ((∀ pb ∈ segs, NoBracket pb.1 ∧ NoBracket pb.2) ∧ NoBracket q))

/-- The annotation block with contents `b`: the text `[b]`. -/
def block (b : List Char) : List Char :=
  '[' :: (b ++ [']'])

/-- Position `i` of `s` is at or after a `[` that no `]` has closed before `i`:
it lies inside a bracket block, brackets included. -/
def InsideBlock (s : List Char) (i : Nat) : Prop :=
  ∃ j, j ≤ i ∧ s[j]? = some '[' ∧ ∀ k, j < k → k < i → s[k]? ≠ some ']'

/-- The marks that the scan of `removeAnnotations` puts on the scanned
characters `d` (all but the last) under either policy. -/
def scanMask (stripAll : Bool) (d : List Char) : List Bool :=
  if stripAll then maskAll false d else maskKeep none d

/-- The first whitespace-delimited word of a line, leading whitespace skipped. -/
def firstWord (line : List Char) : List Char :=
  (line.dropWhile isSpace).takeWhile (fun c => !isSpace c)

/-- The removal list `charsToRemove` as `removeAnnotations` holds it when its
scanning loop ends. -/
def charsToRemoveOf (tree : List Char) (stripAll : Bool) : List Nat :=
  if stripAll then
    ((List.range (tree.length - 1)).foldl (stepAll tree) (ScanState.mk false 0 [])).charsToRemove
  else
    ((List.range (tree.length - 1)).foldl (stepKeep tree) (ScanState.mk false 0 [])).charsToRemove

/-- A single forward pass over `s` that copies the characters whose offset is
not in `idxs`. -/
def copyRetained (s : List Char) (idxs : List Nat) : List Char :=
  (List.range s.length).filterMap (fun i => if i ∈ idxs then none else s[i]?)

/-- The maximal run of characters from `0123456789.` that starts at offset `o`
of `B`; it is empty when `o` is past the end or the character there is another. -/
def numericRun (B : List Char) (o : Nat) : List Char :=
  (B.drop o).takeWhile (fun c => numericChars.contains c)

/-- What is kept of a closed block `B` in the words of the specification: the
numeric run 10 characters after the first `posterior` match, or 6 characters
after the first `label` match when `posterior` is absent, nothing without key. -/
def retainedValue (B : List Char) : List Char :=
  match find B posteriorKey with
  | some k => numericRun B (k + 10)
  | none =>
    match find B labelKey with
    | some k => numericRun B (k + 6)
    | none => []

/-- The treestring `withBlocks segs q` with every block replaced by its
`retainedValue`. -/
def blocksValued : List (List Char × List Char) → List Char → List Char
  | [], q => q
  | (p, b) :: rest, q => p ++ (retainedValue (block b) ++ blocksValued rest q)

/-- Every pair `(p, b)` is a text without `[` and the contents of a block that
its first `]` closes. -/
def ClosedBlocks (segs : List (List Char × List Char)) : Prop :=
  ∀ pb ∈ segs, '[' ∉ pb.1 ∧ ']' ∉ pb.2

instance (segs : List (List Char × List Char)) : Decidable (ClosedBlocks segs) :=
  inferInstanceAs (Decidable (∀ pb ∈ segs, '[' ∉ pb.1 ∧ ']' ∉ pb.2))

/-- The text `pat` occurs in `s` at offset `k` and at no smaller offset. -/
def FirstAt (pat s : List Char) (k : Nat) : Prop :=
  pat <+: s.drop k ∧ ∀ j, j < k → ¬ pat <+: s.drop j

instance (pat s : List Char) (k : Nat) : Decidable (FirstAt pat s k) :=
  inferInstanceAs (Decidable (pat <+: s.drop k ∧ ∀ j, j < k → ¬ pat <+: s.drop j))

/-! ## Erasing the marked positions -/

theorem eraseIdx_length_append (pre : List Char) (c : Char) (r : List Char) :
    (pre ++ c :: r).eraseIdx pre.length = pre ++ r := by
  induction pre with
  | nil => rfl
  | cons a pre ih => simp [ih]

theorem erase_length_append (pre : List Char) (c : Char) (r : List Char) :
    erase (pre ++ c :: r) pre.length = some (pre ++ r) := by
  simp [erase, eraseIdx_length_append]

theorem eraseAll_cons (s : List Char) (k : Nat) (ks : List Nat) :
    eraseAll s (k :: ks) = (eraseAll s ks).bind (fun t => erase t k) := by
  simp [eraseAll, List.foldlM_append]

theorem eraseAll_maskIdxs (m : List Bool) :
    ∀ (cs pre tail : List Char), m.length = cs.length →
      eraseAll (pre ++ cs ++ tail) (maskIdxs m pre.length) =
        some (pre ++ dropMarked m cs ++ tail) := by
  induction m with
  | nil =>
    intro cs pre tail h
    cases cs with
    | nil => simp [eraseAll, maskIdxs, dropMarked]
    | cons c cs => simp at h
  | cons b m ih =>
    intro cs pre tail h
    cases cs with
    | nil => simp at h
    | cons c cs =>
      have ih1 := ih cs (pre ++ [c]) tail (by simpa using h)
      simp only [List.length_append, List.length_singleton, List.append_assoc,
        List.singleton_append, List.cons_append, List.nil_append] at ih1
      cases b with
      | false => simpa [maskIdxs, dropMarked] using ih1
      | true =>
        simp only [maskIdxs, dropMarked, if_true, eraseAll_cons, List.append_assoc,
          List.cons_append]
        rw [ih1]
        simpa using erase_length_append pre c (dropMarked m cs ++ tail)

theorem maskIdxs_append (m1 m2 : List Bool) (off : Nat) :
    maskIdxs (m1 ++ m2) off = maskIdxs m1 off ++ maskIdxs m2 (off + m1.length) := by
  induction m1 generalizing off with
  | nil => simp [maskIdxs]
  | cons b m ih =>
    cases b <;> simp [maskIdxs, ih, Nat.add_assoc, Nat.add_comm 1]

theorem maskIdxs_replicate_false (n off : Nat) :
    maskIdxs (List.replicate n false) off = [] := by
  induction n generalizing off with
  | zero => rfl
  | succ n ih => simp [List.replicate_succ, maskIdxs, ih]

theorem dropMarked_append (m1 m2 : List Bool) (c1 c2 : List Char)
    (h : m1.length = c1.length) :
    dropMarked (m1 ++ m2) (c1 ++ c2) = dropMarked m1 c1 ++ dropMarked m2 c2 := by
  induction m1 generalizing c1 with
  | nil =>
    cases c1 with
    | nil => simp [dropMarked]
    | cons c c1 => simp at h
  | cons b m ih =>
    cases c1 with
    | nil => simp at h
    | cons c c1 =>
      have := ih c1 (by simpa using h)
      cases b <;> simp [dropMarked, this]

theorem dropMarked_sublist (m : List Bool) (cs : List Char) :
    (dropMarked m cs).Sublist cs := by
  induction m generalizing cs with
  | nil => simp [dropMarked]
  | cons b m ih =>
    cases cs with
    | nil => simp [dropMarked]
    | cons c cs =>
      cases b
      · simpa [dropMarked] using ih cs
      · simpa [dropMarked] using (ih cs).trans (List.sublist_cons_self c cs)

theorem length_maskAll (g : Bool) (cs : List Char) : (maskAll g cs).length = cs.length := by
  induction cs generalizing g with
  | nil => cases g <;> rfl
  | cons c cs ih =>
    cases g
    · by_cases h : c = '[' <;> simp [maskAll, h, ih]
    · by_cases h : c = ']' <;> simp [maskAll, h, ih]

theorem length_blockMask (a : List Char) : (blockMask a).length = a.length := by
  simp [blockMask]

theorem length_maskKeep (p : Option (List Char)) (cs : List Char) :
    (maskKeep p cs).length = (p.map List.length).getD 0 + cs.length := by
  induction cs generalizing p with
  | nil => cases p <;> simp [maskKeep]
  | cons c cs ih =>
    cases p with
    | none =>
      by_cases h : c = '['
      · simp [maskKeep, h, ih]
        omega
      · simp [maskKeep, h, ih]
    | some blk =>
      by_cases h : c = ']'
      · simp [maskKeep, h, ih, length_blockMask]
        omega
      · simp [maskKeep, h, ih]
        omega

/-! ## The scanning loops compute the masks -/

theorem getElem?_length_append (pre : List Char) (c : Char) (r : List Char) :
    (pre ++ c :: r)[pre.length]? = some c := by
  induction pre with
  | nil => simp
  | cons a pre ih => simpa using ih

theorem stepAll_at (pre : List Char) (c : Char) (r : List Char) (st : ScanState) :
    stepAll (pre ++ c :: r) st pre.length =
      if st.going then
        if c = ']' then ScanState.mk false st.start (st.charsToRemove ++ [pre.length])
        else ScanState.mk st.going st.start (st.charsToRemove ++ [pre.length])
      else
        if c = '[' then ScanState.mk true pre.length (st.charsToRemove ++ [pre.length])
        else st := by
  simp only [stepAll, getElem?_length_append, Option.some.injEq]

theorem stepKeep_at (pre : List Char) (c : Char) (r : List Char) (st : ScanState) :
    stepKeep (pre ++ c :: r) st pre.length =
      if st.going then
        if c = ']' then
          ScanState.mk false st.start
            (keepSupportValue (substr (pre ++ c :: r) st.start (pre.length - st.start + 1))
              st.start st.charsToRemove)
        else st
      else
        if c = '[' then ScanState.mk true pre.length st.charsToRemove
        else st := by
  simp only [stepKeep, getElem?_length_append, Option.some.injEq]

theorem foldl_stepAll (cs : List Char) :
    ∀ (pre tail : List Char) (st : ScanState),
      ((List.range' pre.length cs.length).foldl (stepAll (pre ++ cs ++ tail)) st).charsToRemove
        = st.charsToRemove ++ maskIdxs (maskAll st.going cs) pre.length := by
  induction cs with
  | nil =>
    intro pre tail st
    cases hg : st.going <;> simp [maskAll, maskIdxs]
  | cons c cs ih =>
    intro pre tail st
    have ih1 := ih (pre ++ [c]) tail
    simp only [List.length_append, List.length_singleton, List.append_assoc,
      List.singleton_append, List.cons_append, List.nil_append] at ih1
    simp only [List.length_cons, List.range'_succ, List.foldl_cons, List.append_assoc,
      List.cons_append]
    rw [ih1, stepAll_at]
    rcases st with ⟨g, s0, acc⟩
    cases g
    · by_cases h : c = '['
      · simp [h, maskAll, maskIdxs]
      · simp [h, maskAll, maskIdxs]
    · by_cases h : c = ']'
      · simp [h, maskAll, maskIdxs]
      · simp [h, maskAll, maskIdxs]

theorem range_filter_map_eq_maskIdxs (p : Nat → Bool) (start n k : Nat) :
    ((List.range' k n).filter p).map (fun i => i + start)
      = maskIdxs ((List.range' k n).map p) (k + start) := by
  induction n generalizing k with
  | zero => simp [maskIdxs]
  | succ n ih =>
    simp only [List.range'_succ, List.map_cons, List.filter_cons]
    cases hp : p k
    · simp [maskIdxs, ih, Nat.add_right_comm]
    · simp [maskIdxs, ih, Nat.add_right_comm]

theorem keepSupportValue_eq (ann : List Char) (start : Nat) (acc : List Nat) :
    keepSupportValue ann start acc = acc ++ maskIdxs (blockMask ann) start := by
  have := range_filter_map_eq_maskIdxs
    (fun (i : Nat) => decide ((i : Int) < (supportBounds ann).1
      ∨ (i : Int) > (supportBounds ann).2)) start ann.length 0
  simp only [Nat.zero_add, ← List.range_eq_range'] at this
  simp only [keepSupportValue, blockMask, this]

theorem substr_block (pre : List Char) (c : Char) (r : List Char) (s0 : Nat)
    (hs : s0 ≤ pre.length) :
    substr (pre ++ c :: r) s0 (pre.length - s0 + 1) = pre.drop s0 ++ [c] := by
  simp only [substr]
  rw [List.drop_append_of_le_length hs, List.take_append_eq_append_take]
  simp [List.take_of_length_le]

theorem foldl_stepKeep (cs : List Char) :
    ∀ (pre tail : List Char) (st : ScanState), (st.going = true → st.start ≤ pre.length) →
      ((List.range' pre.length cs.length).foldl (stepKeep (pre ++ cs ++ tail)) st).charsToRemove
        = st.charsToRemove ++ maskIdxs (maskKeep (pendingOf st pre) cs) (offsetOf st pre) := by
  induction cs with
  | nil =>
    intro pre tail st _
    cases hg : st.going <;> simp [pendingOf, hg, maskKeep, maskIdxs, maskIdxs_replicate_false]
  | cons c cs ih =>
    intro pre tail st hst
    have ih1 := ih (pre ++ [c]) tail
    simp only [List.length_append, List.length_singleton, List.append_assoc,
      List.singleton_append, List.cons_append, List.nil_append] at ih1
    simp only [List.length_cons, List.range'_succ, List.foldl_cons, List.append_assoc,
      List.cons_append]
    rw [stepKeep_at]
    rcases st with ⟨g, s0, acc⟩
    cases g
    · by_cases h : c = '['
      · rw [ih1 _ (by simp [h])]
        simp [h, maskKeep, pendingOf, offsetOf]
      · rw [ih1 _ (by simp [h])]
        simp [h, maskKeep, maskIdxs, pendingOf, offsetOf]
    · have hs : s0 ≤ pre.length := hst rfl
      by_cases h : c = ']'
      · rw [ih1 _ (by simp [h])]
        have hlen : s0 + (pre.length - s0 + 1) = pre.length + 1 := by omega
        simp [h, substr_block _ _ _ _ hs, maskKeep, pendingOf, offsetOf, keepSupportValue_eq,
          maskIdxs_append, length_blockMask, hlen]
      · rw [ih1 _ (by simp [h]; omega)]
        simp [h, maskKeep, pendingOf, offsetOf, List.drop_append_of_le_length hs]

/-! ## Closed forms of `removeAnnotations` -/

theorem dropMarked_replicate_false (cs : List Char) :
    dropMarked (List.replicate cs.length false) cs = cs := by
  induction cs with
  | nil => rfl
  | cons c cs ih => simp [List.replicate_succ, dropMarked, ih]

theorem dropMarked_maskAll (g : Bool) (cs : List Char) :
    dropMarked (maskAll g cs) cs = keptAll g cs := by
  induction cs generalizing g with
  | nil => cases g <;> rfl
  | cons c cs ih =>
    cases g
    · by_cases h : c = '[' <;> simp [maskAll, keptAll, dropMarked, h, ih]
    · by_cases h : c = ']' <;> simp [maskAll, keptAll, dropMarked, h, ih]

theorem dropMarked_maskKeep (cs : List Char) :
    ∀ p : Option (List Char),
      dropMarked (maskKeep p cs) (p.getD [] ++ cs) = keptKeep p cs := by
  induction cs with
  | nil =>
    intro p
    cases p with
    | none => rfl
    | some blk => simpa [maskKeep, keptKeep] using dropMarked_replicate_false blk
  | cons c cs ih =>
    intro p
    cases p with
    | none =>
      by_cases h : c = '['
      · simpa [maskKeep, keptKeep, h] using ih (some ['['])
      · simpa [maskKeep, keptKeep, dropMarked, h] using ih none
    | some blk =>
      by_cases h : c = ']'
      · have e : blk ++ c :: cs = (blk ++ [c]) ++ cs := by simp
        have := ih none
        simp only [Option.getD_none, List.nil_append] at this
        simp only [Option.getD_some, maskKeep, keptKeep, h, if_true, supportValue]
        rw [← h, e, dropMarked_append _ _ _ _ (length_blockMask _), this]
      · simpa [maskKeep, keptKeep, h] using ih (some (blk ++ [c]))

theorem removeAnnotations_nil (stripAll : Bool) : removeAnnotations [] stripAll = some [] := by
  cases stripAll <;> rfl

theorem removeAnnotations_all (d : List Char) (x : Char) :
    removeAnnotations (d ++ [x]) true = some (keptAll false d ++ [x]) := by
  have h1 := foldl_stepAll d [] [x] (ScanState.mk false 0 [])
  have h2 := eraseAll_maskIdxs (maskAll false d) d [] [x] (length_maskAll false d)
  simp only [List.length_nil, List.nil_append, ← List.range_eq_range'] at h1 h2
  simp only [removeAnnotations, if_true, List.length_append, List.length_singleton,
    Nat.add_sub_cancel, h1, h2, dropMarked_maskAll]

theorem removeAnnotations_keep (d : List Char) (x : Char) :
    removeAnnotations (d ++ [x]) false = some (keptKeep none d ++ [x]) := by
  have h1 := foldl_stepKeep d [] [x] (ScanState.mk false 0 []) (by simp)
  have h2 := eraseAll_maskIdxs (maskKeep none d) d [] [x] (by simp [length_maskKeep])
  have h3 := dropMarked_maskKeep d none
  simp only [List.length_nil, List.nil_append, ← List.range_eq_range', pendingOf, offsetOf,
    Option.getD_none, Bool.false_eq_true, if_false, List.append_nil] at h1 h2 h3
  simp only [removeAnnotations, Bool.false_eq_true, if_false, List.length_append,
    List.length_singleton, Nat.add_sub_cancel, h1, h2, h3]

/-! ## Strings with balanced, non-nested blocks -/

theorem keptAll_false_append (p r : List Char) (hp : '[' ∉ p) :
    keptAll false (p ++ r) = p ++ keptAll false r := by
  induction p with
  | nil => rfl
  | cons c p ih =>
    have hc : c ≠ '[' := fun h => hp (by simp [h])
    have hp1 : '[' ∉ p := fun h => hp (by simp [h])
    simp [keptAll, hc, ih hp1]

theorem keptAll_true_append (b r : List Char) (hb : ']' ∉ b) :
    keptAll true (b ++ ']' :: r) = keptAll false r := by
  induction b with
  | nil => simp [keptAll]
  | cons c b ih =>
    have hc : c ≠ ']' := fun h => hb (by simp [h])
    have hb1 : ']' ∉ b := fun h => hb (by simp [h])
    simp [keptAll, hc, ih hb1]

theorem keptAll_false_self (p : List Char) (hp : '[' ∉ p) : keptAll false p = p := by
  have := keptAll_false_append p [] hp
  simpa [keptAll] using this

theorem withBlocks_append (segs : List (List Char × List Char)) (q r : List Char) :
    withBlocks segs (q ++ r) = withBlocks segs q ++ r := by
  induction segs with
  | nil => rfl
  | cons pb segs ih => simp [withBlocks, ih]

theorem blocksDeleted_append (segs : List (List Char × List Char)) (q r : List Char) :
    blocksDeleted segs (q ++ r) = blocksDeleted segs q ++ r := by
  induction segs with
  | nil => rfl
  | cons pb segs ih => simp [blocksDeleted, ih]

theorem blocksReduced_append (segs : List (List Char × List Char)) (q r : List Char) :
    blocksReduced segs (q ++ r) = blocksReduced segs q ++ r := by
  induction segs with
  | nil => rfl
  | cons pb segs ih => simp [blocksReduced, ih]

theorem keptAll_withBlocks (segs : List (List Char × List Char)) (q : List Char)
    (h : ∀ pb ∈ segs, NoBracket pb.1 ∧ NoBracket pb.2) (hq : '[' ∉ q) :
    keptAll false (withBlocks segs q) = blocksDeleted segs q := by
  induction segs with
  | nil => simpa [withBlocks, blocksDeleted] using keptAll_false_self q hq
  | cons pb segs ih =>
    obtain ⟨p, b⟩ := pb
    have hpb := h (p, b) (by simp)
    have ih1 := ih (fun x hx => h x (by simp [hx]))
    simp only [withBlocks, blocksDeleted]
    rw [keptAll_false_append _ _ hpb.1.1]
    simp only [keptAll, if_true]
    rw [keptAll_true_append _ _ hpb.2.2, ih1]

theorem exists_dropLast_of_ne_nil (q : List Char) (hq : q ≠ []) :
    ∃ (d : List Char) (x : Char), q = d ++ [x] :=
  ⟨q.dropLast, q.getLast hq, (List.dropLast_append_getLast hq).symm⟩

/-- C1. For a treestring with balanced, non-nested blocks whose last character
is not a bracket, `removeAnnotations` with `stripAll = true` returns the input
with every block deleted from `[` through `]` and all other characters kept in
order. -/
theorem removeAnnotations_all_balanced (segs : List (List Char × List Char)) (q : List Char)
    (hwf : WellFormed segs q) (hne : q ≠ []) :
    removeAnnotations (withBlocks segs q) true = some (blocksDeleted segs q) := by
  obtain ⟨d, x, rfl⟩ := exists_dropLast_of_ne_nil q hne
  have hd : '[' ∉ d := fun h => hwf.2.1 (by simp [h])
  rw [withBlocks_append, blocksDeleted_append, removeAnnotations_all,
    keptAll_withBlocks segs d hwf.1 hd]

theorem removeAnnotations_all_balanced_witness :
    WellFormed [("(A:1.0,B".toList, "&posterior=0.88".toList)] ":2.0);".toList
    ∧ ":2.0);".toList ≠ []
    ∧ removeAnnotations "(A:1.0,B[&posterior=0.88]:2.0);".toList true
        = some "(A:1.0,B:2.0);".toList :=
  ⟨by decide, by decide,
    removeAnnotations_all_balanced [("(A:1.0,B".toList, "&posterior=0.88".toList)]
      ":2.0);".toList (by decide) (by decide)⟩

/-! ## The library searches -/

theorem findAux_eq_some (pat : List Char) :
    ∀ (s : List Char) (i k : Nat), pat <+: s.drop k → (∀ j, j < k → ¬ pat <+: s.drop j) →
      findAux pat s i = some (i + k) := by
  intro s
  induction s with
  | nil =>
    intro i k hk hlt
    have hpat : pat = [] := by simpa using hk
    cases k with
    | zero => simp [findAux, hpat]
    | succ k => exact absurd (by simp [hpat]) (hlt 0 (Nat.succ_pos k))
  | cons c cs ih =>
    intro i k hk hlt
    cases k with
    | zero =>
      have : pat.isPrefixOf (c :: cs) = true := List.isPrefixOf_iff_prefix.mpr (by simpa using hk)
      simp [findAux, this]
    | succ k =>
      have h0 : ¬ pat <+: c :: cs := by simpa using hlt 0 (Nat.succ_pos k)
      have : pat.isPrefixOf (c :: cs) = false := by
        cases hb : pat.isPrefixOf (c :: cs)
        · rfl
        · exact absurd (List.isPrefixOf_iff_prefix.mp hb) h0
      have ih1 := ih (i + 1) k (by simpa using hk)
        (fun j hj => by simpa using hlt (j + 1) (Nat.succ_lt_succ hj))
      simp only [findAux, this, Bool.false_eq_true, if_false, ih1]
      congr 1
      omega

theorem findAux_eq_none (pat : List Char) :
    ∀ (s : List Char) (i : Nat), ¬ pat <:+: s → findAux pat s i = none := by
  intro s
  induction s with
  | nil =>
    intro i h
    have : pat ≠ [] := fun e => h (by simp [e])
    simp [findAux, this]
  | cons c cs ih =>
    intro i h
    have h1 : pat.isPrefixOf (c :: cs) = false := by
      cases hb : pat.isPrefixOf (c :: cs)
      · rfl
      · exact absurd (List.isPrefixOf_iff_prefix.mp hb).isInfix h
    have h2 : ¬ pat <:+: cs := fun hi => h (hi.trans (List.suffix_cons c cs).isInfix)
    simp [findAux, h1, ih (i + 1) h2]

theorem find_eq_some (pat s : List Char) (k : Nat) (hk : pat <+: s.drop k)
    (hlt : ∀ j, j < k → ¬ pat <+: s.drop j) : find s pat = some k := by
  simpa [find] using findAux_eq_some pat s 0 k hk hlt

theorem find_eq_none (pat s : List Char) (h : ¬ pat <:+: s) : find s pat = none :=
  findAux_eq_none pat s 0 h

theorem findFirstNotOfAux_run (chars v : List Char) (c : Char) (r : List Char) (i : Nat)
    (hv : ∀ x ∈ v, x ∈ chars) (hc : c ∉ chars) :
    findFirstNotOfAux chars (v ++ c :: r) i = some (i + v.length) := by
  induction v generalizing i with
  | nil => simp [findFirstNotOfAux, hc]
  | cons x v ih =>
    have hx : x ∈ chars := hv x (by simp)
    have := ih (i + 1) (fun y hy => hv y (by simp [hy]))
    have hcx : chars.contains x = true := by simpa using hx
    rw [List.cons_append, findFirstNotOfAux, if_pos hcx, this, List.length_cons,
      show i + 1 + v.length = i + (v.length + 1) by omega]

/-! ## What `keepSupportValue` leaves of one annotation -/

theorem dropMarked_range_append (f : Nat → Bool) (A B : List Char) (k : Nat) :
    dropMarked ((List.range' k (A ++ B).length).map f) (A ++ B)
      = dropMarked ((List.range' k A.length).map f) A
        ++ dropMarked ((List.range' (k + A.length) B.length).map f) B := by
  rw [List.length_append, Nat.add_comm A.length, ← List.range'_append_1, List.map_append,
    dropMarked_append _ _ _ _ (by simp)]

theorem dropMarked_range_true (f : Nat → Bool) (A : List Char) (k : Nat)
    (h : ∀ i, k ≤ i → i < k + A.length → f i = true) :
    dropMarked ((List.range' k A.length).map f) A = [] := by
  induction A generalizing k with
  | nil => rfl
  | cons c A ih =>
    have h0 : f k = true := h k (Nat.le_refl k) (by simp)
    have := ih (k + 1) (fun i h1 h2 => h i (by omega) (by simp only [List.length_cons]; omega))
    simp [List.range'_succ, dropMarked, h0, this]

theorem dropMarked_range_false (f : Nat → Bool) (A : List Char) (k : Nat)
    (h : ∀ i, k ≤ i → i < k + A.length → f i = false) :
    dropMarked ((List.range' k A.length).map f) A = A := by
  induction A generalizing k with
  | nil => rfl
  | cons c A ih =>
    have h0 : f k = false := h k (Nat.le_refl k) (by simp)
    have := ih (k + 1) (fun i h1 h2 => h i (by omega) (by simp only [List.length_cons]; omega))
    simp [List.range'_succ, dropMarked, h0, this]

theorem supportValue_window (X V Y : List Char)
    (h1 : (supportBounds (X ++ V ++ Y)).1 = (X.length : Int))
    (h2 : (supportBounds (X ++ V ++ Y)).2 = (X.length : Int) + (V.length : Int) - 1) :
    supportValue (X ++ V ++ Y) = V := by
  simp only [supportValue, blockMask, h1, h2, List.range_eq_range']
  rw [dropMarked_range_append, dropMarked_range_append, Nat.zero_add]
  rw [dropMarked_range_true _ X 0 (by intro i _ hi; simp; omega),
    dropMarked_range_false _ V X.length (by intro i h3 hi; simp; omega),
    dropMarked_range_true _ Y _ (by intro i h3 hi; simp at h3 ⊢; omega)]
  simp

theorem supportValue_all_marked (ann : List Char)
    (h : ∀ i : Nat, i < ann.length →
      (i : Int) < (supportBounds ann).1 ∨ (i : Int) > (supportBounds ann).2) :
    supportValue ann = [] := by
  simp only [supportValue, blockMask, List.range_eq_range']
  exact dropMarked_range_true _ ann 0 (by intro i _ hi; simpa using h i (by omega))

theorem supportBounds_posterior (ann : List Char) (k : Nat)
    (h : find ann posteriorKey = some k) :
    supportBounds ann
      = ((k : Int) + 10, castFound (find_first_not_of ann numericChars (k + 10)) - 1) := by
  have : ((k : Int) + 10).toNat = k + 10 := by omega
  simp only [supportBounds, h, this]

theorem supportBounds_label (ann : List Char) (k : Nat)
    (h0 : find ann posteriorKey = none) (h : find ann labelKey = some k) :
    supportBounds ann
      = ((k : Int) + 6, castFound (find_first_not_of ann numericChars (k + 6)) - 1) := by
  have : ((k : Int) + 6).toNat = k + 6 := by omega
  simp only [supportBounds, h0, h, this]

theorem supportBounds_no_key (ann : List Char)
    (h0 : find ann posteriorKey = none) (h : find ann labelKey = none) :
    supportBounds ann = ((ann.length : Int) - 1, 0) := by
  simp only [supportBounds, h0, h]

theorem supportValue_no_key (ann : List Char) (hlen : 2 ≤ ann.length)
    (h0 : find ann posteriorKey = none) (h : find ann labelKey = none) :
    supportValue ann = [] := by
  apply supportValue_all_marked
  intro i hi
  rw [supportBounds_no_key ann h0 h]
  simp only
  omega

theorem find_first_not_of_run (X v : List Char) (c : Char) (Y : List Char)
    (hv : ∀ x ∈ v, x ∈ numericChars) (hc : c ∉ numericChars) :
    find_first_not_of (X ++ v ++ c :: Y) numericChars X.length = some (X.length + v.length) := by
  simp only [find_first_not_of, List.append_assoc, List.drop_left]
  exact findFirstNotOfAux_run numericChars v c Y X.length hv hc

/-! ## The scan without `stripAll` on strings with balanced blocks -/

theorem keptKeep_none_append (p r : List Char) (hp : '[' ∉ p) :
    keptKeep none (p ++ r) = p ++ keptKeep none r := by
  induction p with
  | nil => rfl
  | cons c p ih =>
    have hc : c ≠ '[' := fun h => hp (by simp [h])
    have hp1 : '[' ∉ p := fun h => hp (by simp [h])
    simp [keptKeep, hc, ih hp1]

theorem keptKeep_none_self (p : List Char) (hp : '[' ∉ p) : keptKeep none p = p := by
  have := keptKeep_none_append p [] hp
  simpa [keptKeep] using this

theorem keptKeep_some_append (b : List Char) :
    ∀ (blk r : List Char), ']' ∉ b →
      keptKeep (some blk) (b ++ ']' :: r) = supportValue (blk ++ b ++ [']']) ++ keptKeep none r := by
  induction b with
  | nil => intro blk r _; simp [keptKeep]
  | cons c b ih =>
    intro blk r hb
    have hc : c ≠ ']' := fun h => hb (by simp [h])
    have hb1 : ']' ∉ b := fun h => hb (by simp [h])
    simp [keptKeep, hc, ih (blk ++ [c]) r hb1]

theorem keptKeep_withBlocks (segs : List (List Char × List Char)) (q : List Char)
    (h : ∀ pb ∈ segs, NoBracket pb.1 ∧ NoBracket pb.2) (hq : '[' ∉ q) :
    keptKeep none (withBlocks segs q) = blocksReduced segs q := by
  induction segs with
  | nil => simpa [withBlocks, blocksReduced] using keptKeep_none_self q hq
  | cons pb segs ih =>
    obtain ⟨p, b⟩ := pb
    have hpb := h (p, b) (by simp)
    have ih1 := ih (fun x hx => h x (by simp [hx]))
    simp only [withBlocks, blocksReduced]
    rw [keptKeep_none_append _ _ hpb.1.1]
    simp only [keptKeep, if_true]
    rw [keptKeep_some_append _ _ _ hpb.2.2, ih1]
    simp

theorem removeAnnotations_keep_balanced (segs : List (List Char × List Char)) (q : List Char)
    (hwf : WellFormed segs q) (hne : q ≠ []) :
    removeAnnotations (withBlocks segs q) false = some (blocksReduced segs q) := by
  obtain ⟨d, x, rfl⟩ := exists_dropLast_of_ne_nil q hne
  have hd : '[' ∉ d := fun h => hwf.2.1 (by simp [h])
  rw [withBlocks_append, blocksReduced_append, removeAnnotations_keep,
    keptKeep_withBlocks segs d hwf.1 hd]

theorem withBlocks_single (p b q : List Char) :
    withBlocks [(p, b)] q = p ++ block b ++ q := by
  simp [withBlocks, block]

theorem noBracket_of_numeric (v : List Char) (hv : ∀ c ∈ v, c ∈ numericChars) :
    NoBracket v := by
  constructor
  · intro h
    exact absurd (hv _ h) (by decide)
  · intro h
    exact absurd (hv _ h) (by decide)

theorem noBracket_append (a b : List Char) (ha : NoBracket a) (hb : NoBracket b) :
    NoBracket (a ++ b) := by
  simp only [NoBracket, List.mem_append, not_or]
  exact ⟨⟨ha.1, hb.1⟩, ⟨ha.2, hb.2⟩⟩

theorem supportValue_key (X v Y : List Char)
    (hb : supportBounds (X ++ v ++ Y)
      = ((X.length : Int),
          castFound (find_first_not_of (X ++ v ++ Y) numericChars X.length) - 1))
    (hv : ∀ x ∈ v, x ∈ numericChars) (hY : ∀ c, Y.head? = some c → c ∉ numericChars)
    (hne : Y ≠ []) :
    supportValue (X ++ v ++ Y) = v := by
  cases Y with
  | nil => exact absurd rfl hne
  | cons c Y =>
    have hc : c ∉ numericChars := hY c rfl
    apply supportValue_window
    · rw [hb]
    · rw [hb, find_first_not_of_run X v c Y hv hc]
      simp only [castFound]
      push_cast
      ring

theorem head?_append_bracket (r : List Char) (hr : ∀ c, r.head? = some c → c ∉ numericChars) :
    ∀ c, (r ++ [']']).head? = some c → c ∉ numericChars := by
  intro c hc
  cases r with
  | nil =>
    have : c = ']' := by simpa using hc.symm
    rw [this]
    decide
  | cons x r => exact hr c (by simpa using hc)

/-- The value left of a block whose first key occurrence is `key`, found at
offset `1 + a.length`, with `n = key.length + 1` the offset added by the code. -/
theorem supportValue_block_key (key a v r : List Char) (n : Nat) (hn : n = key.length + 1)
    (hb : supportBounds (block (a ++ key ++ '=' :: (v ++ r)))
      = (((a.length + 1 : Nat) : Int) + n,
          castFound (find_first_not_of (block (a ++ key ++ '=' :: (v ++ r))) numericChars
            (a.length + 1 + n)) - 1))
    (hv : ∀ c ∈ v, c ∈ numericChars) (hmax : ∀ c, r.head? = some c → c ∉ numericChars) :
    supportValue (block (a ++ key ++ '=' :: (v ++ r))) = v := by
  have e : block (a ++ key ++ '=' :: (v ++ r))
      = ('[' :: (a ++ key ++ ['='])) ++ v ++ (r ++ [']']) := by
    simp [block]
  have hlen : ('[' :: (a ++ key ++ ['='])).length = a.length + 1 + n := by
    simp only [List.length_cons, List.length_append, List.length_nil, hn]
    omega
  rw [e] at hb ⊢
  apply supportValue_key _ _ _ _ hv (head?_append_bracket r hmax) (by simp)
  rw [hb, hlen]
  push_cast
  rfl

/-- C2. A block whose first occurrence of `posterior` is followed by `=` and a
maximal run `v` of digits and dots is replaced by `v`; the text around the
block is kept. -/
theorem removeAnnotations_keep_posterior (p a v r q : List Char)
    (hp : NoBracket p) (hq : NoBracket q) (hne : q ≠ [])
    (ha : NoBracket a) (hr : NoBracket r)
    (hfirst : ∀ j, j ≤ a.length →
      ¬ posteriorKey <+: (block (a ++ posteriorKey ++ '=' :: (v ++ r))).drop j)
    (hv : ∀ c ∈ v, c ∈ numericChars)
    (hmax : ∀ c, r.head? = some c → c ∉ numericChars) :
    removeAnnotations (p ++ block (a ++ posteriorKey ++ '=' :: (v ++ r)) ++ q) false
      = some (p ++ v ++ q) := by
  have hin : NoBracket (a ++ posteriorKey ++ '=' :: (v ++ r)) :=
    noBracket_append _ _ (noBracket_append _ _ ha (by decide))
      (noBracket_append ['='] _ (by decide) (noBracket_append _ _ (noBracket_of_numeric v hv) hr))
  have hwf : WellFormed [(p, a ++ posteriorKey ++ '=' :: (v ++ r))] q :=
    ⟨fun pb hpb => by
      rw [List.mem_singleton] at hpb
      subst hpb
      exact ⟨hp, hin⟩, hq⟩
  have hfind : find (block (a ++ posteriorKey ++ '=' :: (v ++ r))) posteriorKey
      = some (a.length + 1) := by
    apply find_eq_some
    · simp [block, List.append_assoc]
    · intro j hj
      exact hfirst j (by omega)
  have hval := supportValue_block_key posteriorKey a v r 10 (by decide)
    (supportBounds_posterior _ _ hfind) hv hmax
  rw [← withBlocks_single, removeAnnotations_keep_balanced _ _ hwf hne]
  simp only [blocksReduced]
  rw [show '[' :: (a ++ posteriorKey ++ '=' :: (v ++ r) ++ [']'])
      = block (a ++ posteriorKey ++ '=' :: (v ++ r)) from rfl, hval]
  simp

theorem removeAnnotations_keep_posterior_witness :
    (NoBracket "(A:1.0,B".toList ∧ NoBracket ":2.0);".toList ∧ ":2.0);".toList ≠ []
      ∧ NoBracket "&".toList ∧ NoBracket ([] : List Char)
      ∧ (∀ j, j ≤ "&".toList.length →
          ¬ posteriorKey <+: (block ("&".toList ++ posteriorKey ++ '=' :: ("0.88".toList ++ []))).drop j)
      ∧ (∀ c ∈ "0.88".toList, c ∈ numericChars)
      ∧ (∀ c, ([] : List Char).head? = some c → c ∉ numericChars))
    ∧ removeAnnotations "(A:1.0,B[&posterior=0.88]:2.0);".toList false
        = some "(A:1.0,B0.88:2.0);".toList
    ∧ removeAnnotations "(A:1.0,B[&posterior=0.97,height=1.2]:2.0);".toList false
        = some "(A:1.0,B0.97:2.0);".toList :=
  ⟨⟨by decide, by decide, by decide, by decide, by decide, by decide, by decide,
      fun c h => by simp at h⟩,
    removeAnnotations_keep_posterior "(A:1.0,B".toList "&".toList "0.88".toList []
      ":2.0);".toList (by decide) (by decide) (by decide) (by decide) (by decide) (by decide)
      (by decide) (fun c h => by simp at h),
    removeAnnotations_keep_posterior "(A:1.0,B".toList "&".toList "0.97".toList
      ",height=1.2".toList ":2.0);".toList (by decide) (by decide) (by decide) (by decide)
      (by decide) (by decide) (by decide)
      (fun c h => by
        have : c = ',' := by simpa using h.symm
        rw [this]
        decide)⟩

/-- C3. A block without `posterior` whose first occurrence of `label` is
followed by `=` and a maximal run `v` of digits and dots is replaced by `v`;
the text around the block is kept. -/
theorem removeAnnotations_keep_label (p a v r q : List Char)
    (hp : NoBracket p) (hq : NoBracket q) (hne : q ≠ [])
    (ha : NoBracket a) (hr : NoBracket r)
    (hpost : ¬ posteriorKey <:+: block (a ++ labelKey ++ '=' :: (v ++ r)))
    (hfirst : ∀ j, j ≤ a.length →
      ¬ labelKey <+: (block (a ++ labelKey ++ '=' :: (v ++ r))).drop j)
    (hv : ∀ c ∈ v, c ∈ numericChars)
    (hmax : ∀ c, r.head? = some c → c ∉ numericChars) :
    removeAnnotations (p ++ block (a ++ labelKey ++ '=' :: (v ++ r)) ++ q) false
      = some (p ++ v ++ q) := by
  have hin : NoBracket (a ++ labelKey ++ '=' :: (v ++ r)) :=
    noBracket_append _ _ (noBracket_append _ _ ha (by decide))
      (noBracket_append ['='] _ (by decide) (noBracket_append _ _ (noBracket_of_numeric v hv) hr))
  have hwf : WellFormed [(p, a ++ labelKey ++ '=' :: (v ++ r))] q :=
    ⟨fun pb hpb => by
      rw [List.mem_singleton] at hpb
      subst hpb
      exact ⟨hp, hin⟩, hq⟩
  have hfind : find (block (a ++ labelKey ++ '=' :: (v ++ r))) labelKey
      = some (a.length + 1) := by
    apply find_eq_some
    · simp [block, List.append_assoc]
    · intro j hj
      exact hfirst j (by omega)
  have hval := supportValue_block_key labelKey a v r 6 (by decide)
    (supportBounds_label _ _ (find_eq_none _ _ hpost) hfind) hv hmax
  rw [← withBlocks_single, removeAnnotations_keep_balanced _ _ hwf hne]
  simp only [blocksReduced]
  rw [show '[' :: (a ++ labelKey ++ '=' :: (v ++ r) ++ [']'])
      = block (a ++ labelKey ++ '=' :: (v ++ r)) from rfl, hval]
  simp

theorem removeAnnotations_keep_label_witness :
    (NoBracket "(A:1.0,B".toList ∧ NoBracket ":2.0);".toList ∧ ":2.0);".toList ≠ []
      ∧ NoBracket "&".toList ∧ NoBracket ",!rotate=true".toList
      ∧ ¬ posteriorKey <:+:
          block ("&".toList ++ labelKey ++ '=' :: ("85".toList ++ ",!rotate=true".toList))
      ∧ (∀ j, j ≤ "&".toList.length →
          ¬ labelKey <+: (block ("&".toList ++ labelKey ++ '=' ::
            ("85".toList ++ ",!rotate=true".toList))).drop j)
      ∧ (∀ c ∈ "85".toList, c ∈ numericChars)
      ∧ (∀ c, ",!rotate=true".toList.head? = some c → c ∉ numericChars))
    ∧ removeAnnotations "(A:1.0,B[&label=85,!rotate=true]:2.0);".toList false
        = some "(A:1.0,B85:2.0);".toList :=
  ⟨⟨by decide, by decide, by decide, by decide, by decide, by decide, by decide, by decide,
      fun c h => by
        have : c = ',' := by simpa using h.symm
        rw [this]
        decide⟩,
    removeAnnotations_keep_label "(A:1.0,B".toList "&".toList "85".toList
      ",!rotate=true".toList ":2.0);".toList (by decide) (by decide) (by decide) (by decide)
      (by decide) (by decide) (by decide) (by decide)
      (fun c h => by
        have : c = ',' := by simpa using h.symm
        rw [this]
        decide)⟩

theorem blocksReduced_eq_blocksDeleted (segs : List (List Char × List Char)) (q : List Char)
    (hkeys : ∀ pb ∈ segs, ¬ posteriorKey <:+: block pb.2 ∧ ¬ labelKey <:+: block pb.2) :
    blocksReduced segs q = blocksDeleted segs q := by
  induction segs with
  | nil => rfl
  | cons pb segs ih =>
    obtain ⟨p, b⟩ := pb
    have hk := hkeys (p, b) (by simp)
    have hval : supportValue (block b) = [] :=
      supportValue_no_key (block b) (by simp [block]) (find_eq_none _ _ hk.1)
        (find_eq_none _ _ hk.2)
    have ih1 := ih (fun x hx => hkeys x (by simp [hx]))
    simp only [blocksReduced, blocksDeleted, ih1]
    rw [show '[' :: (b ++ [']']) = block b from rfl, hval]
    simp

/-- C4. On a treestring with balanced, non-nested blocks that ends in a
non-bracket character and whose blocks contain neither `posterior` nor `label`,
`removeAnnotations` with `stripAll = false` returns the same string as with
`stripAll = true`: every block is deleted, brackets included. -/
theorem removeAnnotations_keep_eq_all_of_no_key (segs : List (List Char × List Char))
    (q : List Char) (hwf : WellFormed segs q) (hne : q ≠ [])
    (hkeys : ∀ pb ∈ segs, ¬ posteriorKey <:+: block pb.2 ∧ ¬ labelKey <:+: block pb.2) :
    removeAnnotations (withBlocks segs q) false = removeAnnotations (withBlocks segs q) true
      ∧ removeAnnotations (withBlocks segs q) false = some (blocksDeleted segs q) := by
  obtain ⟨d, x, rfl⟩ := exists_dropLast_of_ne_nil q hne
  have hd : '[' ∉ d := fun h => hwf.2.1 (by simp [h])
  have hkeep := removeAnnotations_keep_balanced segs (d ++ [x]) hwf hne
  rw [blocksReduced_eq_blocksDeleted segs _ hkeys] at hkeep
  have hall : removeAnnotations (withBlocks segs (d ++ [x])) true
      = some (blocksDeleted segs (d ++ [x])) := by
    rw [withBlocks_append, blocksDeleted_append, removeAnnotations_all,
      keptAll_withBlocks segs d hwf.1 hd]
  exact ⟨by rw [hkeep, hall], hkeep⟩

theorem removeAnnotations_keep_eq_all_of_no_key_witness :
    (WellFormed [("(A:1.0,B".toList, "&someflag=true".toList)] ":2.0);".toList
      ∧ ":2.0);".toList ≠ []
      ∧ (∀ pb ∈ [("(A:1.0,B".toList, "&someflag=true".toList)],
          ¬ posteriorKey <:+: block pb.2 ∧ ¬ labelKey <:+: block pb.2))
    ∧ removeAnnotations "(A:1.0,B[&someflag=true]:2.0);".toList false
        = removeAnnotations "(A:1.0,B[&someflag=true]:2.0);".toList true
    ∧ removeAnnotations "(A:1.0,B[&someflag=true]:2.0);".toList false
        = some "(A:1.0,B:2.0);".toList :=
  ⟨⟨by decide, by decide, by decide⟩,
    removeAnnotations_keep_eq_all_of_no_key [("(A:1.0,B".toList, "&someflag=true".toList)]
      ":2.0);".toList (by decide) (by decide) (by decide)⟩

theorem not_mem_keptAll (g : Bool) (d : List Char) : '[' ∉ keptAll g d := by
  induction d generalizing g with
  | nil => cases g <;> simp [keptAll]
  | cons c d ih =>
    cases g
    · by_cases h : c = '['
      · simpa [keptAll, h] using ih true
      · have h1 : ¬ '[' = c := fun e => h e.symm
        simpa [keptAll, h, h1] using ih false
    · by_cases h : c = ']'
      · simpa [keptAll, h] using ih false
      · simpa [keptAll, h] using ih true

/-- C5. For every string, `removeAnnotations` with `stripAll = true` returns a
string on which a second application changes nothing. -/
theorem removeAnnotations_all_idempotent (s : List Char) :
    ∃ t, removeAnnotations s true = some t ∧ removeAnnotations t true = some t := by
  rcases List.eq_nil_or_concat s with rfl | ⟨d, x, rfl⟩
  · exact ⟨[], removeAnnotations_nil true, removeAnnotations_nil true⟩
  · refine ⟨keptAll false d ++ [x], ?_, ?_⟩
    · rw [List.concat_eq_append, removeAnnotations_all]
    · rw [removeAnnotations_all, keptAll_false_self _ (not_mem_keptAll false d)]

/-- C6, at the failing input. The treestring `(A,B);[&x]` has one balanced
block, closed by its last character; with `stripAll = true` the closing `]` is
left in the output. -/
theorem removeAnnotations_all_trailing_block :
    WellFormed [("(A,B);".toList, "&x".toList)] []
      ∧ withBlocks [("(A,B);".toList, "&x".toList)] [] = "(A,B);[&x]".toList
      ∧ removeAnnotations "(A,B);[&x]".toList true = some "(A,B);]".toList
      ∧ ']' ∈ "(A,B);]".toList := by
  decide

/-! ## Only characters inside blocks are removed -/

theorem insideBlock_cons (c : Char) (cs : List Char) (i : Nat) (h : InsideBlock cs i) :
    InsideBlock (c :: cs) (i + 1) := by
  obtain ⟨j, hj, hopen, hno⟩ := h
  refine ⟨j + 1, by omega, by simpa using hopen, ?_⟩
  intro k hk1 hk2
  obtain ⟨k, rfl⟩ : ∃ k0, k = k0 + 1 := ⟨k - 1, by omega⟩
  simpa using hno k (by omega) (by omega)

theorem insideBlock_append (d t : List Char) (i : Nat) (hi : i ≤ d.length)
    (h : InsideBlock d i) : InsideBlock (d ++ t) i := by
  obtain ⟨j, hj, hopen, hno⟩ := h
  have hjd : j < d.length := by
    by_contra hge
    rw [List.getElem?_eq_none (by omega)] at hopen
    exact absurd hopen (by simp)
  refine ⟨j, hj, by rw [List.getElem?_append_left hjd]; exact hopen, ?_⟩
  intro k hk1 hk2
  rw [List.getElem?_append_left (by omega)]
  exact hno k hk1 hk2

theorem maskAll_inside (d : List Char) :
    ∀ (g : Bool) (i : Nat), (maskAll g d)[i]? = some true →
      (g = true ∧ ∀ k, k < i → d[k]? ≠ some ']') ∨ InsideBlock d i := by
  induction d with
  | nil => intro g i h; cases g <;> simp [maskAll] at h
  | cons c d ih =>
    intro g i h
    cases i with
    | zero =>
      cases g
      · by_cases hc : c = '['
        · exact Or.inr ⟨0, Nat.le_refl 0, by simp [hc], fun k h1 h2 => by omega⟩
        · simp [maskAll, hc] at h
      · exact Or.inl ⟨rfl, fun k hk => by omega⟩
    | succ i =>
      cases g
      · by_cases hc : c = '['
        · simp only [maskAll, hc, if_true, List.getElem?_cons_succ] at h
          rcases ih true i h with ⟨_, hno⟩ | hin
          · refine Or.inr ⟨0, by omega, by simp [hc], ?_⟩
            intro k hk1 hk2
            obtain ⟨k, rfl⟩ : ∃ k0, k = k0 + 1 := ⟨k - 1, by omega⟩
            simpa using hno k (by omega)
          · exact Or.inr (insideBlock_cons c d i hin)
        · simp only [maskAll, hc, if_false, List.getElem?_cons_succ] at h
          rcases ih false i h with ⟨hg, _⟩ | hin
          · exact absurd hg (by simp)
          · exact Or.inr (insideBlock_cons c d i hin)
      · by_cases hc : c = ']'
        · simp only [maskAll, hc, if_true, List.getElem?_cons_succ] at h
          rcases ih false i h with ⟨hg, _⟩ | hin
          · exact absurd hg (by simp)
          · exact Or.inr (insideBlock_cons _ d i hin)
        · simp only [maskAll, hc, if_false, List.getElem?_cons_succ] at h
          rcases ih true i h with ⟨_, hno⟩ | hin
          · refine Or.inl ⟨rfl, ?_⟩
            intro k hk
            cases k with
            | zero => simpa using hc
            | succ k => simpa using hno k (by omega)
          · exact Or.inr (insideBlock_cons c d i hin)

theorem forall₂_replicate_true (m : List Bool) :
    List.Forall₂ (fun a b : Bool => a = true → b = true) m (List.replicate m.length true) := by
  induction m with
  | nil => exact List.Forall₂.nil
  | cons b m ih => exact List.Forall₂.cons (fun _ => rfl) ih

theorem maskKeep_le_maskAll (cs : List Char) :
    ∀ p : Option (List Char),
      List.Forall₂ (fun a b : Bool => a = true → b = true) (maskKeep p cs)
        (List.replicate (p.getD []).length true ++ maskAll p.isSome cs) := by
  induction cs with
  | nil =>
    intro p
    cases p with
    | none => exact List.Forall₂.nil
    | some blk =>
      simpa [maskKeep, maskAll] using forall₂_replicate_true (List.replicate blk.length false)
  | cons c cs ih =>
    intro p
    cases p with
    | none =>
      by_cases hc : c = '['
      · simpa [maskKeep, maskAll, hc] using ih (some ['['])
      · have := ih none
        simp only [Option.getD_none, List.length_nil, List.replicate_zero, List.nil_append,
          Option.isSome_none] at this
        simp only [maskKeep, maskAll, hc, if_false, Option.getD_none, List.length_nil,
          List.replicate_zero, List.nil_append, Option.isSome_none]
        exact List.Forall₂.cons (fun h => h) this
    | some blk =>
      by_cases hc : c = ']'
      · have h1 := forall₂_replicate_true (blockMask (blk ++ [c]))
        have h2 := ih none
        simp only [Option.getD_none, List.length_nil, List.replicate_zero, List.nil_append,
          Option.isSome_none] at h2
        have h3 := List.rel_append h1 h2
        simp only [length_blockMask, List.length_append, List.length_singleton,
          List.replicate_succ', List.append_assoc, List.singleton_append] at h3
        simpa [maskKeep, maskAll, hc] using h3
      · have := ih (some (blk ++ [c]))
        simp only [Option.getD_some, List.length_append, List.length_singleton,
          List.replicate_succ', List.append_assoc, List.singleton_append,
          Option.isSome_some] at this
        simpa [maskKeep, maskAll, hc] using this

theorem getElem?_of_forall₂ (m1 m2 : List Bool)
    (h : List.Forall₂ (fun a b : Bool => a = true → b = true) m1 m2) :
    ∀ i : Nat, m1[i]? = some true → m2[i]? = some true := by
  induction h with
  | nil => intro i hi; simp at hi
  | cons hab _ ih =>
    intro i hi
    cases i with
    | zero =>
      simp only [List.getElem?_cons_zero, Option.some.injEq] at hi ⊢
      exact hab hi
    | succ i =>
      simp only [List.getElem?_cons_succ] at hi ⊢
      exact ih i hi

theorem length_scanMask (b : Bool) (d : List Char) : (scanMask b d).length = d.length := by
  cases b <;> simp [scanMask, length_maskAll, length_maskKeep]

theorem dropMarked_scanMask (b : Bool) (d : List Char) :
    dropMarked (scanMask b d) d = if b then keptAll false d else keptKeep none d := by
  cases b
  · simpa [scanMask] using dropMarked_maskKeep d none
  · simpa [scanMask] using dropMarked_maskAll false d

theorem removeAnnotations_concat (d : List Char) (x : Char) (b : Bool) :
    removeAnnotations (d ++ [x]) b = some (dropMarked (scanMask b d ++ [false]) (d ++ [x])) := by
  rw [dropMarked_append _ _ _ _ (length_scanMask b d), dropMarked_scanMask]
  cases b
  · simpa [dropMarked] using removeAnnotations_keep d x
  · simpa [dropMarked] using removeAnnotations_all d x

theorem scanMask_inside (b : Bool) (d : List Char) (i : Nat)
    (h : (scanMask b d)[i]? = some true) : InsideBlock d i := by
  have hall : (maskAll false d)[i]? = some true := by
    cases b
    · have := getElem?_of_forall₂ _ _ (maskKeep_le_maskAll d none) i (by simpa [scanMask] using h)
      simpa using this
    · simpa [scanMask] using h
  rcases maskAll_inside d false i hall with ⟨hg, _⟩ | hin
  · exact absurd hg (by simp)
  · exact hin

theorem scanMask_of_no_open (b : Bool) (d : List Char) (hd : '[' ∉ d) :
    dropMarked (scanMask b d) d = d := by
  rw [dropMarked_scanMask]
  cases b
  · simpa using keptKeep_none_self d hd
  · simpa using keptAll_false_self d hd

/-- C7. Under either policy `removeAnnotations` returns the input without the
characters at the marked positions of a mask, every marked position lies
inside a bracket block, so that the output is a subsequence of the input in
which all characters outside blocks are kept in order; a string without `[`
is returned unchanged. -/
theorem removeAnnotations_frame (s : List Char) (stripAll : Bool) :
    ∃ (out : List Char) (mask : List Bool),
      removeAnnotations s stripAll = some out
      ∧ mask.length = s.length
      ∧ out = dropMarked mask s
      ∧ (∀ i, i < s.length → ¬ InsideBlock s i → mask[i]? = some false)
      ∧ out.Sublist s
      ∧ ('[' ∉ s → out = s) := by
  rcases List.eq_nil_or_concat s with rfl | ⟨d, x, rfl⟩
  · exact ⟨[], [], removeAnnotations_nil stripAll, rfl, rfl, fun i hi => by simp at hi,
      List.Sublist.refl _, fun _ => rfl⟩
  · rw [List.concat_eq_append]
    refine ⟨dropMarked (scanMask stripAll d ++ [false]) (d ++ [x]), scanMask stripAll d ++ [false],
      removeAnnotations_concat d x stripAll, by simp [length_scanMask], rfl, ?_,
      dropMarked_sublist _ _, ?_⟩
    · intro i hi hout
      have hlen := length_scanMask stripAll d
      by_cases hid : i < d.length
      · rw [List.getElem?_append_left (by omega)]
        cases hb : (scanMask stripAll d)[i]? with
        | none =>
          rw [List.getElem?_eq_none_iff] at hb
          omega
        | some v =>
          cases v
          · rfl
          · exact absurd
              (insideBlock_append d [x] i (by omega) (scanMask_inside stripAll d i hb)) hout
      · have : i = d.length := by
          simp only [List.length_append, List.length_singleton] at hi
          omega
        rw [List.getElem?_append_right (by omega), this, hlen]
        simp
    · intro hs
      have hd : '[' ∉ d := fun h => hs (by simp [h])
      rw [dropMarked_append _ _ _ _ (length_scanMask stripAll d),
        scanMask_of_no_open stripAll d hd]
      rfl

theorem removeAnnotations_frame_witness :
    '[' ∉ "(A:1.0,B:2.0);".toList
      ∧ removeAnnotations "(A:1.0,B:2.0);".toList false = some "(A:1.0,B:2.0);".toList
      ∧ removeAnnotations "(A:1.0,B:2.0);".toList true = some "(A:1.0,B:2.0);".toList := by
  obtain ⟨o1, _, h1, _, _, _, _, e1⟩ := removeAnnotations_frame "(A:1.0,B:2.0);".toList false
  obtain ⟨o2, _, h2, _, _, _, _, e2⟩ := removeAnnotations_frame "(A:1.0,B:2.0);".toList true
  refine ⟨by decide, ?_, ?_⟩
  · rw [h1, e1 (by decide)]
  · rw [h2, e2 (by decide)]

/-! ## `stripTree` -/

theorem removeAnnotations_isSome (s : List Char) (b : Bool) :
    ∃ out, removeAnnotations s b = some out := by
  rcases List.eq_nil_or_concat s with rfl | ⟨d, x, rfl⟩
  · exact ⟨[], removeAnnotations_nil b⟩
  · rw [List.concat_eq_append]
    exact ⟨_, removeAnnotations_concat d x b⟩

/-- C8. In Newick output mode, on a line whose tokens are a preamble of 4, 3
or 0 tokens followed by a last token `t`, `stripTree` returns the result of
`removeAnnotations` on `t` and nothing else. -/
theorem stripTree_newick (line : List Char) (stripAll : Bool) (pre : List (List Char))
    (t : List Char) (htok : tokenizeString line = pre ++ [t])
    (hn : pre.length = 4 ∨ pre.length = 3 ∨ pre.length = 0) :
    ∃ out, removeAnnotations t stripAll = some out
      ∧ stripTree line true stripAll = some out := by
  obtain ⟨out, hout⟩ := removeAnnotations_isSome t stripAll
  refine ⟨out, hout, ?_⟩
  rcases hn with h | h | h
  · match pre, h with
    | [t0, t1, t2, t3], _ => simp [stripTree, htok, hout]
  · match pre, h with
    | [t0, t1, t2], _ => simp [stripTree, htok, hout]
  · match pre, h with
    | [], _ => simp [stripTree, htok, hout]

theorem stripTree_newick_witness :
    (tokenizeString "tree tree1 = [&R] (A:1.0,B[&posterior=0.88]:2.0);".toList
        = ["tree".toList, "tree1".toList, "=".toList, "[&R]".toList]
            ++ ["(A:1.0,B[&posterior=0.88]:2.0);".toList]
      ∧ (["tree".toList, "tree1".toList, "=".toList, "[&R]".toList].length = 4
          ∨ ["tree".toList, "tree1".toList, "=".toList, "[&R]".toList].length = 3
          ∨ ["tree".toList, "tree1".toList, "=".toList, "[&R]".toList].length = 0))
    ∧ (∃ out, removeAnnotations "(A:1.0,B[&posterior=0.88]:2.0);".toList false = some out
      ∧ stripTree "tree tree1 = [&R] (A:1.0,B[&posterior=0.88]:2.0);".toList true false
          = some out)
    ∧ stripTree "tree tree1 = [&R] (A:1.0,B[&posterior=0.88]:2.0);".toList true false
        = some "(A:1.0,B0.88:2.0);".toList :=
  ⟨⟨by decide, by decide⟩,
    stripTree_newick "tree tree1 = [&R] (A:1.0,B[&posterior=0.88]:2.0);".toList false
      ["tree".toList, "tree1".toList, "=".toList, "[&R]".toList]
      "(A:1.0,B[&posterior=0.88]:2.0);".toList (by decide) (by decide),
    by decide⟩

/-- C9. In Nexus output mode, on a line whose tokens are a preamble of 4 or 3
tokens followed by a last token `t`, `stripTree` returns the preamble tokens
unchanged, joined by single spaces, then a single space and the result of
`removeAnnotations` on `t`. -/
theorem stripTree_nexus (line : List Char) (stripAll : Bool) (pre : List (List Char))
    (t : List Char) (htok : tokenizeString line = pre ++ [t])
    (hn : pre.length = 4 ∨ pre.length = 3) :
    ∃ out, removeAnnotations t stripAll = some out
      ∧ stripTree line false stripAll
          = some (List.intercalate [' '] pre ++ [' '] ++ out) := by
  obtain ⟨out, hout⟩ := removeAnnotations_isSome t stripAll
  refine ⟨out, hout, ?_⟩
  rcases hn with h | h
  · match pre, h with
    | [t0, t1, t2, t3], _ => simp [stripTree, htok, hout, List.intercalate]
  · match pre, h with
    | [t0, t1, t2], _ => simp [stripTree, htok, hout, List.intercalate]

theorem stripTree_nexus_witness :
    (tokenizeString "tree tree1 = (A:1.0,B[&posterior=0.88]:2.0);".toList
        = ["tree".toList, "tree1".toList, "=".toList]
            ++ ["(A:1.0,B[&posterior=0.88]:2.0);".toList]
      ∧ (["tree".toList, "tree1".toList, "=".toList].length = 4
          ∨ ["tree".toList, "tree1".toList, "=".toList].length = 3))
    ∧ (∃ out, removeAnnotations "(A:1.0,B[&posterior=0.88]:2.0);".toList false = some out
      ∧ stripTree "tree tree1 = (A:1.0,B[&posterior=0.88]:2.0);".toList false false
          = some (List.intercalate [' '] ["tree".toList, "tree1".toList, "=".toList]
              ++ [' '] ++ out))
    ∧ stripTree "tree tree1 = (A:1.0,B[&posterior=0.88]:2.0);".toList false false
        = some "tree tree1 = (A:1.0,B0.88:2.0);".toList
    ∧ stripTree "tree T1 = [&R] (A[&x=1],B);".toList false true
        = some "tree T1 = [&R] (A,B);".toList :=
  ⟨⟨by decide, by decide⟩,
    stripTree_nexus "tree tree1 = (A:1.0,B[&posterior=0.88]:2.0);".toList false
      ["tree".toList, "tree1".toList, "=".toList]
      "(A:1.0,B[&posterior=0.88]:2.0);".toList (by decide) (by decide),
    by decide, by decide⟩

/-- C10, at the failing input. In Nexus output mode a line of one token is
returned as it stands: the bare treestring keeps its annotation, and the line
holding only the keyword `tree` keeps its leading blank, where
`removeAnnotations` on the token gives another string. -/
theorem stripTree_nexus_single_token :
    tokenizeString "(A:1.0,B[&posterior=0.88]:2.0);".toList
        = ["(A:1.0,B[&posterior=0.88]:2.0);".toList]
      ∧ stripTree "(A:1.0,B[&posterior=0.88]:2.0);".toList false false
          = some "(A:1.0,B[&posterior=0.88]:2.0);".toList
      ∧ removeAnnotations "(A:1.0,B[&posterior=0.88]:2.0);".toList false
          = some "(A:1.0,B0.88:2.0);".toList
      ∧ stripTree "(A:1.0,B[&posterior=0.88]:2.0);".toList true false
          = some "(A:1.0,B0.88:2.0);".toList
      ∧ tokenizeString " tree".toList = ["tree".toList]
      ∧ stripTree " tree".toList false false = some " tree".toList
      ∧ removeAnnotations "tree".toList false = some "tree".toList := by
  decide

theorem stripTree_isSome (line : List Char) (newick stripAll : Bool) :
    ∃ res, stripTree line newick stripAll = some res := by
  rw [← Option.isSome_iff_exists]
  by_cases h5 : (tokenizeString line).length = 5
  · match htok : tokenizeString line, h5 with
    | [t0, t1, t2, t3, t4], _ =>
      obtain ⟨out, hout⟩ := removeAnnotations_isSome t4 stripAll
      cases newick <;> simp [stripTree, htok, hout]
  · by_cases h4 : (tokenizeString line).length = 4
    · match htok : tokenizeString line, h4 with
      | [t0, t1, t2, t3], _ =>
        obtain ⟨out, hout⟩ := removeAnnotations_isSome t3 stripAll
        cases newick <;> simp [stripTree, htok, hout]
    · by_cases h1 : (tokenizeString line).length = 1
      · match htok : tokenizeString line, h1 with
        | [t0], _ =>
          obtain ⟨out, hout⟩ := removeAnnotations_isSome t0 stripAll
          cases newick <;> simp [stripTree, htok, hout]
      · cases newick <;> simp [stripTree, h5, h4, h1]

/-- C11. On a line whose token count is not 1, 4 or 5, `stripTree` returns the
line itself, in both output modes and under both policies. -/
theorem stripTree_other_count (line : List Char) (newick stripAll : Bool)
    (h1 : (tokenizeString line).length ≠ 1) (h4 : (tokenizeString line).length ≠ 4)
    (h5 : (tokenizeString line).length ≠ 5) :
    stripTree line newick stripAll = some line := by
  cases newick <;> simp [stripTree, h1, h4, h5]

theorem stripTree_other_count_witness :
    ((tokenizeString "tree  t1 = [&R] (A[&x=1], B[&posterior=1]);".toList).length ≠ 1
      ∧ (tokenizeString "tree  t1 = [&R] (A[&x=1], B[&posterior=1]);".toList).length ≠ 4
      ∧ (tokenizeString "tree  t1 = [&R] (A[&x=1], B[&posterior=1]);".toList).length ≠ 5)
    ∧ stripTree "tree  t1 = [&R] (A[&x=1], B[&posterior=1]);".toList true false
        = some "tree  t1 = [&R] (A[&x=1], B[&posterior=1]);".toList
    ∧ stripTree "tree  t1 = [&R] (A[&x=1], B[&posterior=1]);".toList false true
        = some "tree  t1 = [&R] (A[&x=1], B[&posterior=1]);".toList :=
  ⟨⟨by decide, by decide, by decide⟩,
    stripTree_other_count _ true false (by decide) (by decide) (by decide),
    stripTree_other_count _ false true (by decide) (by decide) (by decide)⟩

/-- C12, at the failing input. In Newick output mode the per-line step of
`processTrees` drops a line that is a single bare Newick token: nothing is
written and the count stays 0, although the token is the whole tokenization
and `removeAnnotations` would give `(A:1.0,B0.88:2.0);`. -/
theorem processLine_bare_newick :
    tokenizeString "(A:1.0,B[&posterior=0.88]:2.0);".toList
        = ["(A:1.0,B[&posterior=0.88]:2.0);".toList]
      ∧ removeAnnotations "(A:1.0,B[&posterior=0.88]:2.0);".toList false
          = some "(A:1.0,B0.88:2.0);".toList
      ∧ processLine true false (RunState.mk [] 0) "(A:1.0,B[&posterior=0.88]:2.0);".toList
          = some (RunState.mk [] 0) := by
  decide

/-- C13, at the failing input. A line holding one blank is not empty, so the
per-line step of `processTrees` goes on to `parseString(line, 0)`, which
indexes an empty token vector: the step has no defined result, in either
output mode. An empty line is skipped. -/
theorem processLine_blank :
    tokenizeString " ".toList = []
      ∧ parseString " ".toList 0 = none
      ∧ processLine true false (RunState.mk [] 0) " ".toList = none
      ∧ processLine false false (RunState.mk [] 0) " ".toList = none
      ∧ processLine true false (RunState.mk [] 0) [] = some (RunState.mk [] 0)
      ∧ processLine false false (RunState.mk [] 0) [] = some (RunState.mk [] 0) := by
  decide

/-! ## `tokenizeString` -/

theorem tokenizeAux_cons_cur (cs : List Char) :
    ∀ cur : List Char, cur ≠ [] →
      tokenizeAux cs cur
        = (cur ++ cs.takeWhile (fun c => !isSpace c))
            :: tokenizeAux (cs.dropWhile (fun c => !isSpace c)) [] := by
  induction cs with
  | nil =>
    intro cur hcur
    simp [tokenizeAux, hcur]
  | cons c cs ih =>
    intro cur hcur
    cases hc : isSpace c
    · have := ih (cur ++ [c]) (by simp)
      simp [tokenizeAux, hc, this]
    · simp [tokenizeAux, hc, hcur]

theorem tokenizeString_unfold (s : List Char) :
    tokenizeString s
      = if s.dropWhile isSpace = [] then []
        else (s.dropWhile isSpace).takeWhile (fun c => !isSpace c)
          :: tokenizeString ((s.dropWhile isSpace).dropWhile (fun c => !isSpace c)) := by
  induction s with
  | nil => simp [tokenizeString, tokenizeAux]
  | cons c cs ih =>
    cases hc : isSpace c
    · have := tokenizeAux_cons_cur cs [c] (by simp)
      simp [tokenizeString, tokenizeAux, hc, this]
    · simp only [tokenizeString] at ih
      simp [tokenizeString, tokenizeAux, hc, ih]

theorem tokenizeAux_tokens (cs : List Char) :
    ∀ cur : List Char, (∀ c ∈ cur, isSpace c = false) →
      ∀ t ∈ tokenizeAux cs cur, t ≠ [] ∧ ∀ c ∈ t, isSpace c = false := by
  induction cs with
  | nil =>
    intro cur hcur t ht
    by_cases h : cur = []
    · simp [tokenizeAux, h] at ht
    · simp only [tokenizeAux, List.isEmpty_iff, h, if_false, List.mem_singleton] at ht
      subst ht
      exact ⟨h, hcur⟩
  | cons c cs ih =>
    intro cur hcur t ht
    cases hc : isSpace c
    · have hcur1 : ∀ x ∈ cur ++ [c], isSpace x = false := by
        intro x hx
        rcases List.mem_append.mp hx with h | h
        · exact hcur x h
        · rw [List.mem_singleton] at h
          rw [h, hc]
      simp only [tokenizeAux, hc, Bool.false_eq_true, if_false] at ht
      exact ih _ hcur1 t ht
    · by_cases h : cur = []
      · simp only [tokenizeAux, hc, if_true, List.isEmpty_iff, h] at ht
        exact ih [] (by simp) t ht
      · simp only [tokenizeAux, hc, if_true, List.isEmpty_iff, h, if_false,
          List.mem_cons] at ht
        rcases ht with rfl | ht
        · exact ⟨h, hcur⟩
        · exact ih [] (by simp) t ht

theorem tokenizeAux_flatten (cs : List Char) :
    ∀ cur : List Char,
      (tokenizeAux cs cur).flatten = cur ++ cs.filter (fun c => !isSpace c) := by
  induction cs with
  | nil =>
    intro cur
    by_cases h : cur = [] <;> simp [tokenizeAux, h]
  | cons c cs ih =>
    intro cur
    cases hc : isSpace c
    · simp [tokenizeAux, hc, ih]
    · by_cases h : cur = [] <;> simp [tokenizeAux, hc, h, ih]

theorem tokenizeAux_eq_nil (cs : List Char) :
    ∀ cur : List Char,
      tokenizeAux cs cur = [] ↔ cur = [] ∧ ∀ c ∈ cs, isSpace c = true := by
  induction cs with
  | nil =>
    intro cur
    by_cases h : cur = [] <;> simp [tokenizeAux, h]
  | cons c cs ih =>
    intro cur
    cases hc : isSpace c
    · simp [tokenizeAux, hc, ih]
    · by_cases h : cur = [] <;> simp [tokenizeAux, hc, h, ih]

/-- C15. `tokenizeString` returns the maximal whitespace-free runs of its
input from left to right: after the leading whitespace the first token is the
longest run without whitespace and the other tokens are those of the text
behind it; no token is empty or contains whitespace, the tokens concatenated
are the input without its whitespace, and there is no token exactly when
every character of the input is whitespace. -/
theorem tokenizeString_spec (s : List Char) :
    tokenizeString s
        = (if s.dropWhile isSpace = [] then []
          else (s.dropWhile isSpace).takeWhile (fun c => !isSpace c)
            :: tokenizeString ((s.dropWhile isSpace).dropWhile (fun c => !isSpace c)))
      ∧ (∀ t ∈ tokenizeString s, t ≠ [] ∧ ∀ c ∈ t, isSpace c = false)
      ∧ (tokenizeString s).flatten = s.filter (fun c => !isSpace c)
      ∧ (tokenizeString s = [] ↔ ∀ c ∈ s, isSpace c = true) := by
  refine ⟨tokenizeString_unfold s, tokenizeAux_tokens s [] (by simp), ?_, ?_⟩
  · simpa [tokenizeString] using tokenizeAux_flatten s []
  · simpa [tokenizeString] using tokenizeAux_eq_nil s []

/-! ## The per-line step of `processTrees` -/

theorem tokenizeString_of_nonblank (line : List Char) (h : ∃ c ∈ line, isSpace c = false) :
    tokenizeString line
      = firstWord line
        :: tokenizeString ((line.dropWhile isSpace).dropWhile (fun c => !isSpace c)) := by
  have hne : line.dropWhile isSpace ≠ [] := by
    intro hnil
    obtain ⟨c, hc, hsp⟩ := h
    have := (List.dropWhile_eq_nil_iff.mp hnil) c hc
    rw [hsp] at this
    exact absurd this (by simp)
  rw [tokenizeString_unfold, if_neg hne]
  rfl

/-- C14. On a line with a character that is not whitespace the per-line step
of `processTrees` looks at the first whitespace-delimited word: if it is
`tree` the step writes `stripTree(line)` and adds one to the count, otherwise
the count stays and the line is dropped in Newick output mode and written as
it is in Nexus output mode. -/
theorem processLine_nonblank (newick stripAll : Bool) (st : RunState) (line : List Char)
    (h : ∃ c ∈ line, isSpace c = false) :
    parseString line 0 = some (firstWord line)
      ∧ (firstWord line = "tree".toList →
          ∃ res, stripTree line newick stripAll = some res
            ∧ processLine newick stripAll st line
                = some (RunState.mk (st.strippedTrees ++ [res]) (st.numTrees + 1)))
      ∧ (firstWord line ≠ "tree".toList →
          processLine newick stripAll st line
            = some (if newick then st
                else RunState.mk (st.strippedTrees ++ [line]) st.numTrees)) := by
  have htok := tokenizeString_of_nonblank line h
  have hparse : parseString line 0 = some (firstWord line) := by
    simp [parseString, htok]
  have hne : line.isEmpty = false := by
    obtain ⟨c, hc, _⟩ := h
    cases line with
    | nil => simp at hc
    | cons a l => rfl
  refine ⟨hparse, ?_, ?_⟩
  · intro hfirst
    obtain ⟨res, hres⟩ := stripTree_isSome line newick stripAll
    exact ⟨res, hres, by simp [processLine, hne, hparse, hfirst, hres]⟩
  · intro hfirst
    have hf : ¬ firstWord line = ['t', 'r', 'e', 'e'] := hfirst
    cases newick <;> simp [processLine, hne, hparse, hf]

theorem processLine_nonblank_witness :
    (∃ c ∈ " tree tree1 = (A:1.0,B[&posterior=0.88]:2.0);".toList, isSpace c = false)
      ∧ firstWord " tree tree1 = (A:1.0,B[&posterior=0.88]:2.0);".toList = "tree".toList
      ∧ (∃ res, stripTree " tree tree1 = (A:1.0,B[&posterior=0.88]:2.0);".toList true false
            = some res
          ∧ processLine true false (RunState.mk [] 0)
              " tree tree1 = (A:1.0,B[&posterior=0.88]:2.0);".toList
              = some (RunState.mk ([] ++ [res]) (0 + 1)))
      ∧ processLine true false (RunState.mk [] 0)
          " tree tree1 = (A:1.0,B[&posterior=0.88]:2.0);".toList
          = some (RunState.mk ["(A:1.0,B0.88:2.0);".toList] 1)
      ∧ processLine true false (RunState.mk [] 0) "Tree t = (A,B);".toList
          = some (RunState.mk [] 0)
      ∧ processLine false false (RunState.mk [] 0) "#NEXUS".toList
          = some (RunState.mk ["#NEXUS".toList] 0) :=
  ⟨⟨'t', by decide, by decide⟩, by decide,
    (processLine_nonblank true false (RunState.mk [] 0)
      " tree tree1 = (A:1.0,B[&posterior=0.88]:2.0);".toList
      ⟨'t', by decide, by decide⟩).2.1 (by decide),
    by decide, by decide, by decide⟩

theorem keptAll_true_no_close (a : List Char) (ha : ']' ∉ a) : keptAll true a = [] := by
  induction a with
  | nil => rfl
  | cons c a ih =>
    have hc : c ≠ ']' := fun h => ha (by simp [h])
    have ha1 : ']' ∉ a := fun h => ha (by simp [h])
    simp [keptAll, hc, ih ha1]

theorem keptKeep_some_no_close (a : List Char) :
    ∀ blk : List Char, ']' ∉ a → keptKeep (some blk) a = blk ++ a := by
  induction a with
  | nil => intro blk _; simp [keptKeep]
  | cons c a ih =>
    intro blk ha
    have hc : c ≠ ']' := fun h => ha (by simp [h])
    have ha1 : ']' ∉ a := fun h => ha (by simp [h])
    simp [keptKeep, hc, ih (blk ++ [c]) ha1]

/-- C16. `removeAnnotations` does not read or remove the last character: the
result on `d ++ [x]` is a text `k` that does not depend on `x`, followed by
`x`, whatever `x` is; on the empty string the result is the empty string. -/
theorem removeAnnotations_last (stripAll : Bool) :
    removeAnnotations [] stripAll = some []
      ∧ ∀ d : List Char, ∃ k : List Char, ∀ x : Char,
          removeAnnotations (d ++ [x]) stripAll = some (k ++ [x]) := by
  refine ⟨removeAnnotations_nil stripAll, fun d => ?_⟩
  refine ⟨dropMarked (scanMask stripAll d) d, fun x => ?_⟩
  rw [removeAnnotations_concat, dropMarked_append _ _ _ _ (length_scanMask stripAll d)]
  rfl

/-- C17. When a `[` is not closed before the last character, the policies
differ: on `p ++ "[" ++ a ++ [c]`, with no `[` in `p` and no `]` in `a`,
`stripAll = true` returns `p ++ [c]` and `stripAll = false` returns the input. -/
theorem removeAnnotations_unclosed (p a : List Char) (c : Char)
    (hp : '[' ∉ p) (ha : ']' ∉ a) :
    removeAnnotations (p ++ '[' :: a ++ [c]) true = some (p ++ [c])
      ∧ removeAnnotations (p ++ '[' :: a ++ [c]) false = some (p ++ '[' :: a ++ [c])
      ∧ removeAnnotations (p ++ '[' :: a ++ [c]) true
          ≠ removeAnnotations (p ++ '[' :: a ++ [c]) false := by
  have h1 : removeAnnotations (p ++ '[' :: a ++ [c]) true = some (p ++ [c]) := by
    rw [removeAnnotations_all, keptAll_false_append _ _ hp]
    simp [keptAll, keptAll_true_no_close a ha]
  have h2 : removeAnnotations (p ++ '[' :: a ++ [c]) false
      = some (p ++ '[' :: a ++ [c]) := by
    rw [removeAnnotations_keep, keptKeep_none_append _ _ hp]
    simp [keptKeep, keptKeep_some_no_close a _ ha]
  refine ⟨h1, h2, ?_⟩
  rw [h1, h2]
  intro h
  have := congrArg List.length (Option.some.inj h)
  simp at this

theorem removeAnnotations_unclosed_witness :
    ('[' ∉ "(A,B)".toList ∧ ']' ∉ "&posterior=0.97".toList)
      ∧ removeAnnotations "(A,B)[&posterior=0.97]".toList true = some "(A,B)]".toList
      ∧ removeAnnotations "(A,B)[&posterior=0.97]".toList false
          = some "(A,B)[&posterior=0.97]".toList
      ∧ removeAnnotations "(A,B)[&posterior=0.97]".toList true
          ≠ removeAnnotations "(A,B)[&posterior=0.97]".toList false :=
  ⟨⟨by decide, by decide⟩,
    removeAnnotations_unclosed "(A,B)".toList "&posterior=0.97".toList ']'
      (by decide) (by decide)⟩

/-! ## The removal list -/

theorem removeAnnotations_eq_eraseAll (s : List Char) (b : Bool) :
    removeAnnotations s b = eraseAll s (charsToRemoveOf s b) := by
  cases b <;> rfl

theorem charsToRemoveOf_concat (d : List Char) (x : Char) (b : Bool) :
    charsToRemoveOf (d ++ [x]) b = maskIdxs (scanMask b d) 0 := by
  cases b
  · have h1 := foldl_stepKeep d [] [x] (ScanState.mk false 0 []) (by simp)
    simp only [List.length_nil, List.nil_append, ← List.range_eq_range', pendingOf, offsetOf,
      Bool.false_eq_true, if_false] at h1
    simp only [charsToRemoveOf, scanMask, Bool.false_eq_true, if_false, List.length_append,
      List.length_singleton, Nat.add_sub_cancel, h1]
  · have h1 := foldl_stepAll d [] [x] (ScanState.mk false 0 [])
    simp only [List.length_nil, List.nil_append, ← List.range_eq_range'] at h1
    simp only [charsToRemoveOf, scanMask, if_true, List.length_append,
      List.length_singleton, Nat.add_sub_cancel, h1]

theorem mem_maskIdxs (m : List Bool) :
    ∀ (off k : Nat), k ∈ maskIdxs m off → off ≤ k ∧ k < off + m.length := by
  induction m with
  | nil => intro off k h; simp [maskIdxs] at h
  | cons b m ih =>
    intro off k h
    cases b
    · have := ih (off + 1) k (by simpa [maskIdxs] using h)
      simp only [List.length_cons]
      omega
    · simp only [maskIdxs, if_true, List.mem_cons] at h
      rcases h with rfl | h
      · simp
      · have := ih (off + 1) k h
        simp only [List.length_cons]
        omega

theorem pairwise_maskIdxs (m : List Bool) :
    ∀ off : Nat, (maskIdxs m off).Pairwise (fun a b => a < b) := by
  induction m with
  | nil => intro off; simp [maskIdxs]
  | cons b m ih =>
    intro off
    cases b
    · simpa [maskIdxs] using ih (off + 1)
    · simp only [maskIdxs, if_true, List.pairwise_cons]
      refine ⟨fun k hk => ?_, ih (off + 1)⟩
      have := mem_maskIdxs m (off + 1) k hk
      omega

theorem dropMarked_eq_filterMap (m : List Bool) :
    ∀ (cs : List Char) (off : Nat), m.length = cs.length →
      dropMarked m cs
        = (List.range cs.length).filterMap
            (fun i => if off + i ∈ maskIdxs m off then none else cs[i]?) := by
  induction m with
  | nil =>
    intro cs off h
    cases cs with
    | nil => rfl
    | cons c cs => simp at h
  | cons b m ih =>
    intro cs off h
    cases cs with
    | nil => simp at h
    | cons c cs =>
      have ih1 := ih cs (off + 1) (by simpa using h)
      have hnot : off ∉ maskIdxs m (off + 1) := fun hm => by
        have := mem_maskIdxs m (off + 1) off hm
        omega
      have hshift : ∀ i : Nat, (off + (i + 1) ∈ maskIdxs (b :: m) off)
          ↔ (off + 1 + i ∈ maskIdxs m (off + 1)) := by
        intro i
        have e : off + (i + 1) = off + 1 + i := by omega
        cases b
        · simp [maskIdxs, e]
        · simp only [maskIdxs, if_true, List.mem_cons, e]
          constructor
          · rintro (h0 | h0)
            · omega
            · exact h0
          · exact Or.inr
      rw [List.length_cons, List.range_succ_eq_map, List.filterMap_cons, List.filterMap_map]
      have htail : List.filterMap
          ((fun i => if off + i ∈ maskIdxs (b :: m) off then none else (c :: cs)[i]?)
            ∘ Nat.succ) (List.range cs.length)
          = dropMarked m cs := by
        rw [ih1]
        apply List.filterMap_congr
        intro i _
        simp only [Function.comp, Nat.succ_eq_add_one, List.getElem?_cons_succ, hshift]
      rw [htail]
      cases b
      · simp [maskIdxs, dropMarked, hnot]
      · simp [maskIdxs, dropMarked]

theorem dropMarked_eq_copyRetained (m : List Bool) (cs : List Char)
    (h : m.length = cs.length) : dropMarked m cs = copyRetained cs (maskIdxs m 0) := by
  have := dropMarked_eq_filterMap m cs 0 h
  simpa [copyRetained] using this

/-- C18. Under either policy the offsets in `charsToRemove` are strictly
increasing and at most `length - 2`; erasing them from the last to the first
stays inside the string and gives the input without the characters at those
offsets, which is what one forward pass copying the other characters gives. -/
theorem charsToRemove_sorted_in_range (s : List Char) (stripAll : Bool) :
    removeAnnotations s stripAll = eraseAll s (charsToRemoveOf s stripAll)
      ∧ (charsToRemoveOf s stripAll).Pairwise (fun a b => a < b)
      ∧ (∀ k ∈ charsToRemoveOf s stripAll, k + 2 ≤ s.length)
      ∧ eraseAll s (charsToRemoveOf s stripAll)
          = some (copyRetained s (charsToRemoveOf s stripAll)) := by
  refine ⟨removeAnnotations_eq_eraseAll s stripAll, ?_⟩
  rcases List.eq_nil_or_concat s with rfl | ⟨d, x, rfl⟩
  · cases stripAll <;> simp [charsToRemoveOf, eraseAll, copyRetained]
  · rw [List.concat_eq_append, charsToRemoveOf_concat]
    have hlen := length_scanMask stripAll d
    refine ⟨pairwise_maskIdxs _ 0, ?_, ?_⟩
    · intro k hk
      have := mem_maskIdxs _ 0 k hk
      simp only [List.length_append, List.length_singleton]
      omega
    · have h1 := eraseAll_maskIdxs (scanMask stripAll d) d [] [x] hlen
      have h2 := dropMarked_eq_copyRetained (scanMask stripAll d ++ [false]) (d ++ [x])
        (by simp [hlen])
      rw [dropMarked_append _ _ _ _ hlen] at h2
      simp only [maskIdxs_append, maskIdxs, Bool.false_eq_true, if_false, List.append_nil,
        dropMarked] at h2
      simp only [List.length_nil, List.nil_append] at h1
      rw [h1, h2]

/-! ## `find` returns the first occurrence -/

theorem findAux_some_firstAt (pat : List Char) :
    ∀ (s : List Char) (i r : Nat), findAux pat s i = some r →
      ∃ k, r = i + k ∧ FirstAt pat s k := by
  intro s
  induction s with
  | nil =>
    intro i r h
    by_cases hp : pat = []
    · refine ⟨0, ?_, by simp [hp], fun j hj => by omega⟩
      simpa [findAux, hp] using h.symm
    · simp [findAux, hp] at h
  | cons c cs ih =>
    intro i r h
    cases hb : pat.isPrefixOf (c :: cs)
    · simp only [findAux, hb, Bool.false_eq_true, if_false] at h
      obtain ⟨k, hr, hk, hlt⟩ := ih (i + 1) r h
      refine ⟨k + 1, by omega, by simpa using hk, ?_⟩
      intro j hj
      cases j with
      | zero =>
        intro hpre
        have := List.isPrefixOf_iff_prefix.mpr (by simpa using hpre)
        rw [hb] at this
        exact absurd this (by simp)
      | succ j => simpa using hlt j (by omega)
    · simp only [findAux, hb, if_true, Option.some.injEq] at h
      exact ⟨0, by omega, by simpa using List.isPrefixOf_iff_prefix.mp hb,
        fun j hj => by omega⟩

theorem find_eq_some_iff (s pat : List Char) (k : Nat) :
    find s pat = some k ↔ FirstAt pat s k := by
  constructor
  · intro h
    obtain ⟨k1, hk1, hfirst⟩ := findAux_some_firstAt pat s 0 k h
    have : k = k1 := by omega
    rw [this]
    exact hfirst
  · intro h
    exact find_eq_some pat s k h.1 h.2

/-! ## The value kept of a closed block -/

theorem dropWhile_of_mem_not (p : Char → Bool) (l : List Char)
    (h : ∃ x ∈ l, p x = false) :
    ∃ c Y, l.dropWhile p = c :: Y ∧ p c = false := by
  induction l with
  | nil =>
    obtain ⟨x, hx, _⟩ := h
    simp at hx
  | cons a l ih =>
    cases ha : p a
    · exact ⟨a, l, by simp [List.dropWhile, ha], ha⟩
    · obtain ⟨x, hx, hpx⟩ := h
      have hx1 : x ∈ l := by
        rcases List.mem_cons.mp hx with rfl | hx1
        · rw [ha] at hpx
          exact absurd hpx (by simp)
        · exact hx1
      obtain ⟨c, Y, hd, hc⟩ := ih ⟨x, hx1, hpx⟩
      exact ⟨c, Y, by simp [List.dropWhile, ha, hd], hc⟩

theorem block_split_at (B b1 : List Char) (o : Nat) (hB : B = b1 ++ [']'])
    (ho : o < B.length) :
    ∃ X v c Y, B = X ++ v ++ c :: Y ∧ X.length = o ∧ (∀ x ∈ v, x ∈ numericChars)
      ∧ c ∉ numericChars ∧ numericRun B o = v := by
  have hmem : ∃ x ∈ B.drop o, (fun c => numericChars.contains c) x = false := by
    refine ⟨']', ?_, by decide⟩
    have hle : o ≤ b1.length := by
      rw [hB] at ho
      simp only [List.length_append, List.length_singleton] at ho
      omega
    rw [hB, List.drop_append_of_le_length hle]
    simp
  obtain ⟨c, Y, hd, hc⟩ := dropWhile_of_mem_not _ _ hmem
  refine ⟨B.take o, (B.drop o).takeWhile (fun c => numericChars.contains c), c, Y, ?_, ?_, ?_,
    ?_, rfl⟩
  · rw [List.append_assoc, ← hd, List.takeWhile_append_dropWhile, List.take_append_drop]
  · simp only [List.length_take]
    omega
  · intro x hx
    have := List.mem_takeWhile_imp hx
    simpa using this
  · intro hmemc
    have : numericChars.contains c = true := by simpa using hmemc
    rw [this] at hc
    exact absurd hc (by simp)

theorem supportValue_eq_numericRun (B b1 : List Char) (o : Nat) (hB : B = b1 ++ [']'])
    (hb : supportBounds B
      = ((o : Int), castFound (find_first_not_of B numericChars o) - 1)) :
    supportValue B = numericRun B o := by
  by_cases ho : o < B.length
  · obtain ⟨X, v, c, Y, e, hX, hv, hc, hrun⟩ := block_split_at B b1 o hB ho
    rw [hrun]
    subst hX
    rw [e] at hb ⊢
    exact supportValue_key X v (c :: Y) hb hv
      (fun x hx => by
        have : x = c := by simpa using hx.symm
        rw [this]
        exact hc) (by simp)
  · have hdrop : B.drop o = [] := List.drop_eq_nil_of_le (by omega)
    have hnone : find_first_not_of B numericChars o = none := by
      simp [find_first_not_of, hdrop, findFirstNotOfAux]
    have hrun : numericRun B o = [] := by simp [numericRun, hdrop]
    rw [hrun]
    apply supportValue_all_marked
    intro i hi
    rw [hb]
    left
    show (i : Int) < (o : Int)
    omega

theorem supportValue_eq_retainedValue (b : List Char) :
    supportValue (block b) = retainedValue (block b) := by
  have hB : block b = ('[' :: b) ++ [']'] := rfl
  unfold retainedValue
  cases hp : find (block b) posteriorKey with
  | some k =>
    have hb := supportBounds_posterior _ k hp
    exact supportValue_eq_numericRun (block b) ('[' :: b) (k + 10) hB
      (by rw [hb]; push_cast; rfl)
  | none =>
    cases hl : find (block b) labelKey with
    | some k =>
      have hb := supportBounds_label _ k hp hl
      exact supportValue_eq_numericRun (block b) ('[' :: b) (k + 6) hB
        (by rw [hb]; push_cast; rfl)
    | none => exact supportValue_no_key (block b) (by simp [block]) hp hl

theorem keptKeep_closedBlocks (segs : List (List Char × List Char)) (q : List Char)
    (h : ClosedBlocks segs) (hq : '[' ∉ q) :
    keptKeep none (withBlocks segs q) = blocksValued segs q := by
  induction segs with
  | nil => simpa [withBlocks, blocksValued] using keptKeep_none_self q hq
  | cons pb segs ih =>
    obtain ⟨p, b⟩ := pb
    have hpb := h (p, b) (by simp)
    have ih1 := ih (fun x hx => h x (by simp [hx]))
    simp only [withBlocks, blocksValued]
    rw [keptKeep_none_append _ _ hpb.1]
    simp only [keptKeep, if_true]
    rw [keptKeep_some_append _ _ _ hpb.2, ih1, ← supportValue_eq_retainedValue]
    rfl

theorem blocksValued_append (segs : List (List Char × List Char)) (q r : List Char) :
    blocksValued segs (q ++ r) = blocksValued segs q ++ r := by
  induction segs with
  | nil => rfl
  | cons pb segs ih => simp [blocksValued, ih]

theorem removeAnnotations_keep_closedBlocks (segs : List (List Char × List Char))
    (q : List Char) (hs : ClosedBlocks segs) (hq : '[' ∉ q) (hne : q ≠ []) :
    removeAnnotations (withBlocks segs q) false = some (blocksValued segs q) := by
  obtain ⟨d, x, rfl⟩ := exists_dropLast_of_ne_nil q hne
  have hd : '[' ∉ d := fun h => hq (by simp [h])
  rw [withBlocks_append, blocksValued_append, removeAnnotations_keep,
    keptKeep_closedBlocks segs d hs hd]

theorem mem_numericRun (B : List Char) (o : Nat) : ∀ c ∈ numericRun B o, c ∈ numericChars := by
  intro c hc
  have := List.mem_takeWhile_imp hc
  simpa using this

theorem mem_retainedValue (B : List Char) : ∀ c ∈ retainedValue B, c ∈ numericChars := by
  intro c hc
  unfold retainedValue at hc
  cases hp : find B posteriorKey with
  | some k =>
    rw [hp] at hc
    exact mem_numericRun B _ c hc
  | none =>
    rw [hp] at hc
    cases hl : find B labelKey with
    | some k =>
      rw [hl] at hc
      exact mem_numericRun B _ c hc
    | none =>
      rw [hl] at hc
      simp at hc

/-- C19. With `stripAll = false`, every closed block of a treestring is
replaced by the maximal run of digits and dots that starts 10 characters after
the first `posterior` match of the block, or 6 characters after the first
`label` match when `posterior` is absent; the kept characters are all digits
or dots. -/
theorem removeAnnotations_keep_values (segs : List (List Char × List Char)) (q : List Char)
    (hs : ClosedBlocks segs) (hq : '[' ∉ q) (hne : q ≠ []) :
    removeAnnotations (withBlocks segs q) false = some (blocksValued segs q)
      ∧ ∀ pb ∈ segs, ∀ c ∈ retainedValue (block pb.2), c ∈ numericChars := by
  constructor
  · obtain ⟨d, x, rfl⟩ := exists_dropLast_of_ne_nil q hne
    have hd : '[' ∉ d := fun h => hq (by simp [h])
    rw [withBlocks_append, blocksValued_append, removeAnnotations_keep,
      keptKeep_closedBlocks segs d hs hd]
  · intro pb _
    exact mem_retainedValue (block pb.2)

theorem removeAnnotations_keep_values_witness :
    (ClosedBlocks [("(A:1.0,B".toList, "&posterior=9.0E-4".toList)]
      ∧ '[' ∉ ":2.0);".toList ∧ ":2.0);".toList ≠ [])
    ∧ retainedValue "[&posterior=9.0E-4]".toList = "9.0".toList
    ∧ removeAnnotations "(A:1.0,B[&posterior=9.0E-4]:2.0);".toList false
        = some "(A:1.0,B9.0:2.0);".toList :=
  ⟨⟨by decide, by decide, by decide⟩, by decide,
    (removeAnnotations_keep_values [("(A:1.0,B".toList, "&posterior=9.0E-4".toList)]
      ":2.0);".toList (by decide) (by decide) (by decide)).1⟩

theorem numericRun_eq_nil (B : List Char) (o : Nat)
    (h : ∀ c, B[o]? = some c → c ∉ numericChars) : numericRun B o = [] := by
  unfold numericRun
  cases hd : B.drop o with
  | nil => rfl
  | cons c Y =>
    have hget : B[o]? = some c := by
      have h0 : (B.drop o)[0]? = B[o]? := by simp
      rw [hd] at h0
      simpa using h0.symm
    have hc := h c hget
    simp [List.takeWhile, hc]

/-- C20. With `stripAll = false`, a closed block whose first `posterior`
match, or first `label` match when `posterior` is absent, has at its value
offset a character that is no digit or dot, or no character at all, is removed
with its brackets: no later occurrence of the key and no other key is used. -/
theorem removeAnnotations_keep_no_value (p b q : List Char) (k o : Nat)
    (hp : '[' ∉ p) (hb : ']' ∉ b) (hq : '[' ∉ q) (hne : q ≠ [])
    (hkey : (FirstAt posteriorKey (block b) k ∧ o = k + 10)
      ∨ (¬ posteriorKey <:+: block b ∧ FirstAt labelKey (block b) k ∧ o = k + 6))
    (hoff : ∀ c, (block b)[o]? = some c → c ∉ numericChars) :
    removeAnnotations (p ++ block b ++ q) false = some (p ++ q) := by
  have hs : ClosedBlocks [(p, b)] := fun pb hpb => by
    rw [List.mem_singleton] at hpb
    subst hpb
    exact ⟨hp, hb⟩
  have hval : retainedValue (block b) = [] := by
    unfold retainedValue
    rcases hkey with ⟨hfirst, rfl⟩ | ⟨hno, hfirst, rfl⟩
    · rw [find_eq_some _ _ k hfirst.1 hfirst.2]
      exact numericRun_eq_nil _ _ hoff
    · rw [find_eq_none _ _ hno, find_eq_some _ _ k hfirst.1 hfirst.2]
      exact numericRun_eq_nil _ _ hoff
  rw [← withBlocks_single, removeAnnotations_keep_closedBlocks _ _ hs hq hne]
  simp [blocksValued, hval]

theorem removeAnnotations_keep_no_value_witness :
    ('[' ∉ "(A,B)".toList ∧ ']' ∉ "&posterior_median=0.5,posterior=0.97".toList
      ∧ '[' ∉ ":1.0;".toList ∧ ":1.0;".toList ≠ []
      ∧ FirstAt posteriorKey (block "&posterior_median=0.5,posterior=0.97".toList) 2
      ∧ (∀ c, (block "&posterior_median=0.5,posterior=0.97".toList)[12]? = some c →
          c ∉ numericChars))
    ∧ removeAnnotations "(A,B)[&posterior_median=0.5,posterior=0.97]:1.0;".toList false
        = some "(A,B):1.0;".toList
    ∧ removeAnnotations "(A,B)[&posterior=,label=85]:1.0;".toList false
        = some "(A,B):1.0;".toList
    ∧ removeAnnotations "(A,B)[&posterior]:1.0;".toList false
        = some "(A,B):1.0;".toList
    ∧ removeAnnotations "(A,B)[&label=x,posterior]:1.0;".toList false
        = some "(A,B):1.0;".toList :=
  ⟨⟨by decide, by decide, by decide, by decide, by decide,
      fun c h => by
        have : c = 'm' := by simpa [block] using h.symm
        rw [this]
        decide⟩,
    removeAnnotations_keep_no_value "(A,B)".toList
      "&posterior_median=0.5,posterior=0.97".toList ":1.0;".toList 2 12
      (by decide) (by decide) (by decide) (by decide) (Or.inl ⟨by decide, rfl⟩)
      (fun c h => by
        have : c = 'm' := by simpa [block] using h.symm
        rw [this]
        decide),
    removeAnnotations_keep_no_value "(A,B)".toList "&posterior=,label=85".toList
      ":1.0;".toList 2 12
      (by decide) (by decide) (by decide) (by decide) (Or.inl ⟨by decide, rfl⟩)
      (fun c h => by
        have : c = ',' := by simpa [block] using h.symm
        rw [this]
        decide),
    removeAnnotations_keep_no_value "(A,B)".toList "&posterior".toList ":1.0;".toList 2 12
      (by decide) (by decide) (by decide) (by decide) (Or.inl ⟨by decide, rfl⟩)
      (fun c h => by simp [block] at h),
    by decide⟩

end StripTrease
